import Mathlib

/-!
# Unigo: a disjoint-set (union-find) structure

Shallow embedding of `src/unigo.go` and a verification development over it.

Modelling conventions
* A Go `map[K]V` is `Option (List (K × V))`: `none` is the nil map, `some es` an
  allocated map whose entries are the association list `es` (first match wins,
  an assignment to an existing key replaces that entry in place).
* The zero value of the generic key type `T` is `default` of `Inhabited T`; the
  zero value of `int` is `0`.
* `sz` holds Go `int`s.  Every value the code ever stores there is bounded by the
  number of keys of the map, which is far below `2^63`, so wrap-around cannot
  occur and the entries are modelled as `Int`.
* The `for` loop of `Find` has no syntactic bound; it is modelled with fuel that
  counts executions of the loop body.  Running out of fuel is the outcome
  `Outcome.fuelOut`; theorems about results always establish `Outcome.ok`.
* An assignment to an entry of a nil map panics in Go: outcome `Outcome.panic`.
-/

set_option linter.unusedSectionVars false

/-- Error values built by the package (`fmt.Errorf` / `errors.New`). -/
inductive Error (T : Type) where
  | alreadyExists (item : T)
  | notFound (item : T)
  | alreadyInitialized
  deriving DecidableEq, Repr

/-- Result of running a piece of Go code. -/
inductive Outcome (α : Type) where
  | ok (a : α)
  | panic
  | fuelOut
  deriving DecidableEq, Repr

namespace GoMap

variable {K V : Type} [DecidableEq K]

/-- Entry lookup in an allocated map. -/
def lookup : List (K × V) → K → Option V
  | [], _ => none
  | (k', v) :: m, k => if k' = k then some v else lookup m k

/-- Entry assignment in an allocated map. -/
def update : List (K × V) → K → V → List (K × V)
  | [], k, v => [(k, v)]
  | (k', v') :: m, k, v => if k' = k then (k, v) :: m else (k', v') :: update m k v

/-- Keys of an allocated map. -/
def keys (m : List (K × V)) : List K := m.map Prod.fst

/-- The comma-ok read `v, exists := m[k]`; a nil map reads as empty. -/
def index? (m : Option (List (K × V))) (k : K) : Option V :=
  match m with
  | none => none
  | some es => lookup es k

/-- The plain read `m[k]`: the zero value when the key is missing. -/
def index [Inhabited V] (m : Option (List (K × V))) (k : K) : V :=
  (index? m k).getD default

/-- The assignment `m[k] = v`; `none` stands for the panic on a nil map. -/
def assign (m : Option (List (K × V))) (k : K) (v : V) : Option (Option (List (K × V))) :=
  match m with
  | none => none
  | some es => some (some (update es k v))

end GoMap

/-- The struct `Unigo[T]`: parent map `id` and size map `sz`. -/
structure Unigo (T : Type) where
  id : Option (List (T × T))
  sz : Option (List (T × Int))
  deriving DecidableEq, Repr

namespace Unigo

variable {T : Type} [DecidableEq T] [Inhabited T]

/-- The zero value `Unigo[T]{}`: both maps nil. -/
def empty : Unigo T := { id := none, sz := none }

/-- Method `mapIntialized`: both maps are non-nil. -/
def mapIntialized (iuf : Unigo T) : Bool :=
  iuf.id.isSome && iuf.sz.isSome

/-- Method `initializeMap`: allocates both maps unless already initialized, and reports
an error otherwise. -/
def initializeMap (iuf : Unigo T) : Option (Error T) × Unigo T :=
  if iuf.mapIntialized then (some Error.alreadyInitialized, iuf)
  else (none, { id := some [], sz := some [] })

/-- The guard `if !iuf.mapIntialized() { iuf.initializeMap() }` opening every
public method (the error result of `initializeMap` is discarded there). -/
def ensureInit (iuf : Unigo T) : Unigo T :=
  if !iuf.mapIntialized then (iuf.initializeMap).2 else iuf

/-- Method `MakeSet`: the guard, the existence check, then the two insertions. -/
def MakeSet (iuf : Unigo T) (item : T) : Outcome (Option (Error T) × Unigo T) :=
  let iuf := ensureInit iuf
  match GoMap.index? iuf.id item with
  | some _ => Outcome.ok (some (Error.alreadyExists item), iuf)
  | none =>
    match GoMap.assign iuf.id item item with
    | none => Outcome.panic
    | some id1 =>
      match GoMap.assign iuf.sz item 1 with
      | none => Outcome.panic
      | some sz1 => Outcome.ok (none, { id := id1, sz := sz1 })

/-- The read pass of `Find`: `for iuf.id[setId] != setId { ... }`.  The fuel counts
executions of the loop body; `none` when it does not suffice. -/
def findWalk (id : Option (List (T × T))) : Nat → T → List T → Option (T × List T)
  | fuel, setId, compBuffer =>
    if GoMap.index id setId ≠ setId then
      match fuel with
      | 0 => none
      | fuel + 1 => findWalk id fuel (GoMap.index id setId) (compBuffer ++ [setId])
    else some (setId, compBuffer)

/-- The write-back pass of `Find`: `for _, val := range compBuffer { iuf.id[val] = setId }`;
`none` stands for a panic. -/
def writeBack (id : Option (List (T × T))) : List T → T → Option (Option (List (T × T)))
  | [], _ => some id
  | val :: rest, setId =>
    match GoMap.assign id val setId with
    | none => none
    | some id1 => writeBack id1 rest setId

/-- Method `Find`: the guard, the existence check, the read pass and the write-back pass. -/
def Find (fuel : Nat) (iuf : Unigo T) (item : T) : Outcome ((T × Option (Error T)) × Unigo T) :=
  let iuf := ensureInit iuf
  match GoMap.index? iuf.id item with
  | none => Outcome.ok ((default, some (Error.notFound item)), iuf)
  | some setId =>
    match findWalk iuf.id fuel setId [] with
    | none => Outcome.fuelOut
    | some (setId, compBuffer) =>
      match writeBack iuf.id compBuffer setId with
      | none => Outcome.panic
      | some id1 => Outcome.ok ((setId, none), { iuf with id := id1 })

/-- The merge step of `Union` (lines 96-104), run once both roots are known and differ. -/
def link (iuf : Unigo T) (setId setId2 : T) : Outcome ((T × Option (Error T)) × Unigo T) :=
  if GoMap.index iuf.sz setId < GoMap.index iuf.sz setId2 then
    match GoMap.assign iuf.sz setId2 (GoMap.index iuf.sz setId2 + GoMap.index iuf.sz setId) with
    | none => Outcome.panic
    | some sz1 =>
      match GoMap.assign iuf.id setId setId2 with
      | none => Outcome.panic
      | some id1 => Outcome.ok ((setId, none), { id := id1, sz := sz1 })
  else
    match GoMap.assign iuf.sz setId (GoMap.index iuf.sz setId + GoMap.index iuf.sz setId2) with
    | none => Outcome.panic
    | some sz1 =>
      match GoMap.assign iuf.id setId2 setId with
      | none => Outcome.panic
      | some id1 => Outcome.ok ((setId, none), { id := id1, sz := sz1 })

/-- Method `Union`: the guard, two `Find` calls with early return on error, the comparison
of the roots, and the merge step. -/
def Union (fuel : Nat) (iuf : Unigo T) (item item2 : T) :
    Outcome ((T × Option (Error T)) × Unigo T) :=
  let iuf := ensureInit iuf
  match Find fuel iuf item with
  | Outcome.panic => Outcome.panic
  | Outcome.fuelOut => Outcome.fuelOut
  | Outcome.ok ((setId, some findErr), iuf) => Outcome.ok ((setId, some findErr), iuf)
  | Outcome.ok ((setId, none), iuf) =>
    match Find fuel iuf item2 with
    | Outcome.panic => Outcome.panic
    | Outcome.fuelOut => Outcome.fuelOut
    | Outcome.ok ((setId2, some findErr2), iuf) => Outcome.ok ((setId2, some findErr2), iuf)
    | Outcome.ok ((setId2, none), iuf) =>
      if setId = setId2 then Outcome.ok ((setId, none), iuf)
      else link iuf setId setId2

/-- Method `Connected`: the guard, two `Find` calls with early return on error, and the
comparison of the roots. -/
def Connected (fuel : Nat) (iuf : Unigo T) (item item2 : T) :
    Outcome ((Bool × Option (Error T)) × Unigo T) :=
  let iuf := ensureInit iuf
  match Find fuel iuf item with
  | Outcome.panic => Outcome.panic
  | Outcome.fuelOut => Outcome.fuelOut
  | Outcome.ok ((_, some findErr), iuf) => Outcome.ok ((false, some findErr), iuf)
  | Outcome.ok ((setId, none), iuf) =>
    match Find fuel iuf item2 with
    | Outcome.panic => Outcome.panic
    | Outcome.fuelOut => Outcome.fuelOut
    | Outcome.ok ((_, some findErr2), iuf) => Outcome.ok ((false, some findErr2), iuf)
    | Outcome.ok ((setId2, none), iuf) => Outcome.ok ((decide (setId = setId2), none), iuf)

end Unigo


/-! ## Parent chains -/

/-- Relation `ParentPath p n x r`: following the parent function `p` from the key `x` reaches the
self-parented key `r` after exactly `n` steps through non-root keys. -/
inductive ParentPath {T : Type} (p : T → Option T) : Nat → T → T → Prop where
  | root {r : T} : p r = some r → ParentPath p 0 r r
  | step {n : Nat} {x y r : T} : p x = some y → y ≠ x → ParentPath p n y r → ParentPath p (n + 1) x r

/-- Relation `Trail p x l r`: `l` lists the keys met when following `p` from `x` up to its
root `r`, the root itself excluded. -/
inductive Trail {T : Type} (p : T → Option T) : T → List T → T → Prop where
  | root {r : T} : p r = some r → Trail p r [] r
  | step {x y r : T} {l : List T} : p x = some y → y ≠ x → Trail p y l r → Trail p x (x :: l) r

/-- Relation `Compressed p q`: the parent function `q` arises from `p` by retargeting some
non-root keys directly to their roots. -/
def Compressed {T : Type} (p q : T → Option T) : Prop :=
  ∀ y, q y = p y ∨ ∃ r k, q y = some r ∧ ParentPath p (k + 1) y r

namespace Unigo

variable {T : Type} [DecidableEq T] [Inhabited T]

/-- The parent-map entry of `x`, if `x` is registered. -/
def par (s : Unigo T) (x : T) : Option T := GoMap.index? s.id x

/-- The size-map entry of `x` as the code reads it (`iuf.sz[x]`). -/
def size (s : Unigo T) (x : T) : Int := GoMap.index s.sz x

/-- The keys of the parent map, in entry order. -/
def regKeys (s : Unigo T) : List T :=
  match s.id with
  | none => []
  | some es => GoMap.keys es

/-- The number of registered elements, `len(iuf.id)`. -/
def card (s : Unigo T) : Nat := (regKeys s).dedup.length

/-- Both maps are nil or both are allocated. -/
def Allocated (s : Unigo T) : Prop := s.id.isSome = s.sz.isSome

/-- Forest invariant: the parent of a key is a key, and every key reaches a
self-parented root after finitely many parent steps. -/
def Forest (s : Unigo T) : Prop :=
  ∀ x y, par s x = some y → (∃ z, par s y = some z) ∧ ∃ n r, ParentPath (par s) n x r

/-- Size conservation: the size entry of every root is the number of registered
elements whose parent chain ends at that root. -/
def SizesOK (s : Unigo T) : Prop :=
  ∀ r, par s r = some r →
    ∃ l : List T, l.Nodup ∧ (∀ x, x ∈ l ↔ ∃ n, ParentPath (par s) n x r) ∧ size s r = l.length

/-- States reachable from the zero value through the four public methods. -/
inductive Reachable : Unigo T → Prop where
  | empty : Reachable empty
  | makeSet {s s' : Unigo T} {item : T} {e : Option (Error T)} :
      Reachable s → MakeSet s item = Outcome.ok (e, s') → Reachable s'
  | find {s s' : Unigo T} {fuel : Nat} {item : T} {res : T × Option (Error T)} :
      Reachable s → Find fuel s item = Outcome.ok (res, s') → Reachable s'
  | union {s s' : Unigo T} {fuel : Nat} {item item2 : T} {res : T × Option (Error T)} :
      Reachable s → Union fuel s item item2 = Outcome.ok (res, s') → Reachable s'
  | connected {s s' : Unigo T} {fuel : Nat} {item item2 : T} {res : Bool × Option (Error T)} :
      Reachable s → Connected fuel s item item2 = Outcome.ok (res, s') → Reachable s'

end Unigo

namespace Unigo

variable {T : Type} [DecidableEq T] [Inhabited T]

/-- The size-map entry of `x`, if there is one. -/
def szEntry (s : Unigo T) (x : T) : Option Int := GoMap.index? s.sz x

/-- Relation `Compresses s s'`: `s'` is `s` with allocated maps, the same keys, the same size
entries, and parent entries that are either unchanged or retargeted to the root
of their key (the effect of path compression). -/
structure Compresses (s s' : Unigo T) : Prop where
  alloc : ∃ es zs, s'.id = some es ∧ s'.sz = some zs
  parents : Compressed (par s) (par s')
  sizes : ∀ x, szEntry s' x = szEntry s x
  keys : regKeys s' = regKeys s

/-- Relation `Linked s s' a b`: `s'` is `s` after the root `a` has been attached under the
root `b` and the size entry of `b` has grown by the size entry of `a`. -/
structure Linked (s s' : Unigo T) (a b : T) : Prop where
  alloc : ∃ es zs, s'.id = some es ∧ s'.sz = some zs
  parents : ∀ y, par s' y = if y = a then some b else par s y
  sizes : ∀ y, szEntry s' y = if y = b then some (size s b + size s a) else szEntry s y
  keys : regKeys s' = regKeys s

/-- The invariant carried by every reachable state. -/
structure Inv (s : Unigo T) : Prop where
  alloc : Allocated s
  forest : Forest s
  sizes : SizesOK s

end Unigo

namespace Unigo

variable {T : Type} [DecidableEq T] [Inhabited T]

/-- Relation `Extended s s' a`: `s'` is `s` with the fresh key `a` registered as a singleton
root of size 1. -/
structure Extended (s s' : Unigo T) (a : T) : Prop where
  alloc : ∃ es zs, s'.id = some es ∧ s'.sz = some zs
  parents : ∀ y, par s' y = if y = a then some a else par s y
  sizes : ∀ y, szEntry s' y = if y = a then some 1 else szEntry s y

end Unigo

namespace Unigo

variable {T : Type} [DecidableEq T] [Inhabited T]

/-- The four ways in which `Union s item item2` can return, relating the returned
pair and the final state to the state `s` before the call. -/
inductive UnionResult (s : Unigo T) (item item2 : T) : T × Option (Error T) → Unigo T → Prop where
  | notFound1 : par s item = none →
      UnionResult s item item2 (default, some (Error.notFound item)) (ensureInit s)
  | notFound2 {n1 : Nat} {r1 : T} {s1 : Unigo T} :
      ParentPath (par s) n1 item r1 → par s item2 = none → Compresses s s1 →
      UnionResult s item item2 (default, some (Error.notFound item2)) s1
  | same {n1 n2 : Nat} {r : T} {s2 : Unigo T} :
      ParentPath (par s) n1 item r → ParentPath (par s) n2 item2 r → Compresses s s2 →
      UnionResult s item item2 (r, none) s2
  | mergedLt {n1 n2 : Nat} {r1 r2 : T} {s2 s' : Unigo T} :
      ParentPath (par s) n1 item r1 → ParentPath (par s) n2 item2 r2 → r1 ≠ r2 →
      Compresses s s2 → size s r1 < size s r2 → Linked s2 s' r1 r2 →
      UnionResult s item item2 (r1, none) s'
  | mergedGe {n1 n2 : Nat} {r1 r2 : T} {s2 s' : Unigo T} :
      ParentPath (par s) n1 item r1 → ParentPath (par s) n2 item2 r2 → r1 ≠ r2 →
      Compresses s s2 → ¬ size s r1 < size s r2 → Linked s2 s' r2 r1 →
      UnionResult s item item2 (r1, none) s'

/-- The three ways in which `Connected s item item2` can return. -/
inductive ConnectedResult (s : Unigo T) (item item2 : T) :
    Bool × Option (Error T) → Unigo T → Prop where
  | notFound1 : par s item = none →
      ConnectedResult s item item2 (false, some (Error.notFound item)) (ensureInit s)
  | notFound2 {n1 : Nat} {r1 : T} {s1 : Unigo T} :
      ParentPath (par s) n1 item r1 → par s item2 = none → Compresses s s1 →
      ConnectedResult s item item2 (false, some (Error.notFound item2)) s1
  | found {n1 n2 : Nat} {r1 r2 : T} {s2 : Unigo T} :
      ParentPath (par s) n1 item r1 → ParentPath (par s) n2 item2 r2 → Compresses s s2 →
      ConnectedResult s item item2 (decide (r1 = r2), none) s2

end Unigo

namespace Unigo

variable {T : Type} [DecidableEq T] [Inhabited T]

/-- Relation `RootOf s x r`: the parent chain of the registered element `x` ends at the root `r`. -/
def RootOf (s : Unigo T) (x r : T) : Prop := ∃ n, ParentPath (par s) n x r

/-- Relation `SameRoot s x y`: `x` and `y` are registered and lie in the same set. -/
def SameRoot (s : Unigo T) (x y : T) : Prop := ∃ r, RootOf s x r ∧ RootOf s y r

/-- The call `Connected(x, y)` returns `true` and no error. -/
def ConnectedTrue (fuel : Nat) (s : Unigo T) (x y : T) : Prop :=
  ∃ s', Connected fuel s x y = Outcome.ok ((true, none), s')

/-- One call of a public method. -/
inductive Call (T : Type) where
  | makeSet (item : T)
  | find (item : T)
  | union (item item2 : T)
  | connected (item item2 : T)

/-- The state left by one call, the returned values dropped. -/
def Call.run (fuel : Nat) (s : Unigo T) : Call T → Outcome (Unigo T)
  | Call.makeSet item =>
    match MakeSet s item with
    | Outcome.ok (_, s') => Outcome.ok s'
    | Outcome.panic => Outcome.panic
    | Outcome.fuelOut => Outcome.fuelOut
  | Call.find item =>
    match Find fuel s item with
    | Outcome.ok (_, s') => Outcome.ok s'
    | Outcome.panic => Outcome.panic
    | Outcome.fuelOut => Outcome.fuelOut
  | Call.union item item2 =>
    match Union fuel s item item2 with
    | Outcome.ok (_, s') => Outcome.ok s'
    | Outcome.panic => Outcome.panic
    | Outcome.fuelOut => Outcome.fuelOut
  | Call.connected item item2 =>
    match Connected fuel s item item2 with
    | Outcome.ok (_, s') => Outcome.ok s'
    | Outcome.panic => Outcome.panic
    | Outcome.fuelOut => Outcome.fuelOut

/-- The state left by a sequence of calls. -/
def runCalls (fuel : Nat) : List (Call T) → Unigo T → Outcome (Unigo T)
  | [], s => Outcome.ok s
  | c :: cs, s =>
    match c.run fuel s with
    | Outcome.ok s' => runCalls fuel cs s'
    | Outcome.panic => Outcome.panic
    | Outcome.fuelOut => Outcome.fuelOut

/-! ### Concrete states used as test inputs -/

/-- After `MakeSet(1)`, `MakeSet(2)`. -/
def pair12 : Unigo Nat :=
  { id := some [(1, 1), (2, 2)], sz := some [(1, 1), (2, 1)] }

/-- After `MakeSet(1)`, `MakeSet(2)`, `MakeSet(3)`. -/
def trio : Unigo Nat :=
  { id := some [(1, 1), (2, 2), (3, 3)], sz := some [(1, 1), (2, 1), (3, 1)] }

/-- After `MakeSet(1)`, `MakeSet(2)`, `MakeSet(3)`, `Union(1,2)`. -/
def trio12 : Unigo Nat :=
  { id := some [(1, 1), (2, 1), (3, 3)], sz := some [(1, 2), (2, 1), (3, 1)] }

/-- After `MakeSet(1)`, `MakeSet(2)`, `MakeSet(3)`, `Union(2,3)`: the sets `{1}` and `{2,3}`. -/
def trio23 : Unigo Nat :=
  { id := some [(1, 1), (2, 2), (3, 2)], sz := some [(1, 1), (2, 2), (3, 1)] }

/-- After `MakeSet(1..4)`, `Union(1,2)`, `Union(3,4)`, `Union(1,3)`: one tree `4 → 3 → 1 ← 2`. -/
def tree4 : Unigo Nat :=
  { id := some [(1, 1), (2, 1), (3, 1), (4, 3)], sz := some [(1, 4), (2, 1), (3, 2), (4, 1)] }

/-- After `MakeSet(1)`, ..., `MakeSet(8)`. -/
def octet : Unigo Nat :=
  { id := some [(1, 1), (2, 2), (3, 3), (4, 4), (5, 5), (6, 6), (7, 7), (8, 8)],
    sz := some [(1, 1), (2, 1), (3, 1), (4, 1), (5, 1), (6, 1), (7, 1), (8, 1)] }

/-- The state `octet` after the unions `(1,2) (3,4) (1,3)`. -/
def octetA : Unigo Nat :=
  { id := some [(1, 1), (2, 1), (3, 1), (4, 3), (5, 5), (6, 6), (7, 7), (8, 8)],
    sz := some [(1, 4), (2, 1), (3, 2), (4, 1), (5, 1), (6, 1), (7, 1), (8, 1)] }

/-- The state `octetA` after the unions `(5,6) (7,8) (5,7)`. -/
def octetB : Unigo Nat :=
  { id := some [(1, 1), (2, 1), (3, 1), (4, 3), (5, 5), (6, 5), (7, 5), (8, 7)],
    sz := some [(1, 4), (2, 1), (3, 2), (4, 1), (5, 4), (6, 1), (7, 2), (8, 1)] }

/-- After `MakeSet(1..8)` and the unions `(1,2) (3,4) (1,3) (5,6) (7,8) (5,7) (1,5)`: one
tree of depth 3 with the chain `8 → 7 → 5 → 1`. -/
def tree8 : Unigo Nat :=
  { id := some [(1, 1), (2, 1), (3, 1), (4, 3), (5, 1), (6, 5), (7, 5), (8, 7)],
    sz := some [(1, 8), (2, 1), (3, 2), (4, 1), (5, 4), (6, 1), (7, 2), (8, 1)] }

/-- The state `tree8` after the path `8 → 7 → 5 → 1` has been compressed above `8`. -/
def tree8c : Unigo Nat :=
  { id := some [(1, 1), (2, 1), (3, 1), (4, 3), (5, 1), (6, 5), (7, 1), (8, 7)],
    sz := some [(1, 8), (2, 1), (3, 2), (4, 1), (5, 4), (6, 1), (7, 2), (8, 1)] }

end Unigo

namespace Unigo

/-- The state `trio23` after `Union(1,2)`: the root `1` has been attached under `2`. -/
def trio23m : Unigo Nat :=
  { id := some [(1, 2), (2, 2), (3, 2)], sz := some [(1, 1), (2, 3), (3, 1)] }

/-- The state `trio12` after `Union(2,3)`: one set with root `1`. -/
def trio123 : Unigo Nat :=
  { id := some [(1, 1), (2, 1), (3, 1)], sz := some [(1, 3), (2, 1), (3, 1)] }

/-- The state `pair12` after `Union(1,2)`. -/
def pair12m : Unigo Nat :=
  { id := some [(1, 1), (2, 1)], sz := some [(1, 2), (2, 1)] }

end Unigo

namespace Unigo

variable {T : Type} [DecidableEq T] [Inhabited T]

/-- The error value that the guard `if !iuf.mapIntialized() { iuf.initializeMap() }`
receives from `initializeMap` and drops; `none` when the guard skips the call. -/
def guardError (iuf : Unigo T) : Option (Error T) :=
  if !iuf.mapIntialized then (iuf.initializeMap).1 else none

end Unigo

namespace Unigo

variable {T : Type} [DecidableEq T] [Inhabited T]

/-- Rank invariant: there is a rank function on elements that strictly increases from
every non-root key to its parent, and every root `r` of rank `k` has `2 ^ k ≤ sz[r]`. -/
def Ranked (s : Unigo T) : Prop :=
  ∃ h : T → Nat, (∀ x y, par s x = some y → y ≠ x → h x < h y) ∧
    (∀ r, par s r = some r → (2 : Int) ^ h r ≤ size s r)

/-- After `MakeSet(1..4)`, `Union(1,2)`, `Union(3,4)`: the two trees `2 → 1` and `4 → 3`. -/
def quad : Unigo Nat :=
  { id := some [(1, 1), (2, 1), (3, 3), (4, 3)], sz := some [(1, 2), (2, 1), (3, 2), (4, 1)] }

end Unigo

/-! # Lemmas -/

namespace ParentPath

variable {T : Type} {p q : T → Option T}

lemma isKey {n : Nat} {x r : T} (h : ParentPath p n x r) : ∃ y, p x = some y := by
  cases h with
  | root h => exact ⟨_, h⟩
  | step h _ _ => exact ⟨_, h⟩

lemma isRoot {n : Nat} {x r : T} (h : ParentPath p n x r) : p r = some r := by
  induction h with
  | root h => exact h
  | step _ _ _ ih => exact ih

lemma of_root {n : Nat} {x r : T} (hx : p x = some x) (h : ParentPath p n x r) : n = 0 ∧ r = x := by
  cases h with
  | root _ => exact ⟨rfl, rfl⟩
  | step h hne _ =>
    rw [hx] at h
    exact absurd (Option.some.inj h).symm hne

/-- A key has at most one root and one depth. -/
lemma unique {n m : Nat} {x r r' : T} (h : ParentPath p n x r) (h' : ParentPath p m x r') :
    n = m ∧ r = r' := by
  induction h generalizing m r' with
  | root hr =>
    obtain ⟨h1, h2⟩ := of_root hr h'
    exact ⟨h1.symm, h2.symm⟩
  | step hxy hne _ ih =>
    cases h' with
    | root hr =>
      rw [hr] at hxy
      exact absurd (Option.some.inj hxy).symm hne
    | step hxy' _ hp' =>
      rw [hxy] at hxy'
      cases Option.some.inj hxy'
      obtain ⟨h1, h2⟩ := ih hp'
      exact ⟨by omega, h2⟩

lemma root_eq {n m : Nat} {x r r' : T} (h : ParentPath p n x r) (h' : ParentPath p m x r') : r = r' :=
  (unique h h').2

lemma parent {n : Nat} {x y r : T} (h : ParentPath p (n + 1) x r) (hxy : p x = some y) :
    ParentPath p n y r := by
  cases h with
  | step hxy' _ hp =>
    rw [hxy] at hxy'
    cases Option.some.inj hxy'
    exact hp

lemma parent_ne {n : Nat} {x y r : T} (h : ParentPath p (n + 1) x r) (hxy : p x = some y) :
    y ≠ x := by
  cases h with
  | step hxy' hne _ =>
    rw [hxy] at hxy'
    cases Option.some.inj hxy'
    exact hne

end ParentPath

namespace Trail

variable {T : Type} {p : T → Option T}

lemma toPath {x r : T} {l : List T} (h : Trail p x l r) : ParentPath p l.length x r := by
  induction h with
  | root hr => exact ParentPath.root hr
  | step hxy hne _ ih => exact ParentPath.step hxy hne ih

lemma ofPath {n : Nat} {x r : T} (h : ParentPath p n x r) : ∃ l, Trail p x l r ∧ l.length = n := by
  induction h with
  | root hr => exact ⟨[], Trail.root hr, rfl⟩
  | step hxy hne _ ih =>
    obtain ⟨l, hl, hlen⟩ := ih
    exact ⟨_ :: l, Trail.step hxy hne hl, by simp [hlen]⟩

/-- Every key on a trail is a non-root key whose chain ends at the same root. -/
lemma mem_path {x r c : T} {l : List T} (h : Trail p x l r) (hc : c ∈ l) :
    ∃ k, k < l.length ∧ ParentPath p (k + 1) c r := by
  induction h with
  | root _ => cases hc
  | @step x y r l hxy hne ht ih =>
    rcases List.mem_cons.1 hc with e | hc'
    · subst e
      exact ⟨l.length, by simp, ParentPath.step hxy hne ht.toPath⟩
    · obtain ⟨k, hk, hp⟩ := ih hc'
      exact ⟨k, by simp; omega, hp⟩

lemma nodup {x r : T} {l : List T} (h : Trail p x l r) : l.Nodup := by
  induction h with
  | root _ => exact List.nodup_nil
  | @step x y r l hxy hne ht ih =>
    refine List.nodup_cons.2 ⟨fun hx => ?_, ih⟩
    obtain ⟨k, hk, hp⟩ := ht.mem_path hx
    have := (ParentPath.unique hp (ParentPath.step hxy hne ht.toPath)).1
    omega

lemma root_not_mem {x r : T} {l : List T} (h : Trail p x l r) : r ∉ l := by
  intro hr
  obtain ⟨k, _, hp⟩ := h.mem_path hr
  exact absurd (ParentPath.of_root hp.isRoot hp).1 (by omega)

end Trail

namespace GoMap

variable {K V : Type} [DecidableEq K]

lemma lookup_update (m : List (K × V)) (k k' : K) (v : V) :
    lookup (update m k v) k' = if k' = k then some v else lookup m k' := by
  induction m with
  | nil =>
    by_cases h : k' = k
    · subst h; simp [update, lookup]
    · simp [update, lookup, h, Ne.symm h]
  | cons e m ih =>
    obtain ⟨k0, v0⟩ := e
    by_cases h0 : k0 = k
    · subst h0
      by_cases h : k' = k0
      · subst h; simp [update, lookup]
      · simp [update, lookup, h, Ne.symm h]
    · by_cases h : k' = k
      · subst h; simp [update, lookup, h0, ih]
      · by_cases h1 : k0 = k'
        · subst h1; simp [update, lookup, h0]
        · simp [update, lookup, h0, h1, ih, h]

lemma mem_keys_iff (m : List (K × V)) (k : K) : k ∈ keys m ↔ ∃ v, lookup m k = some v := by
  induction m with
  | nil => simp [keys, lookup]
  | cons e m ih =>
    obtain ⟨k0, v0⟩ := e
    by_cases h : k0 = k
    · subst h; simp [keys, lookup]
    · have ih' : k ∈ List.map Prod.fst m ↔ ∃ v, lookup m k = some v := ih
      simp [keys, lookup, h, Ne.symm h, ih']

lemma keys_update_of_key (m : List (K × V)) (k : K) (v : V) (h : ∃ w, lookup m k = some w) :
    keys (update m k v) = keys m := by
  induction m with
  | nil => obtain ⟨w, hw⟩ := h; simp [lookup] at hw
  | cons e m ih =>
    obtain ⟨k0, v0⟩ := e
    by_cases h0 : k0 = k
    · subst h0; simp [update, keys]
    · have h' : ∃ w, lookup m k = some w := by simpa [lookup, h0] using h
      have := ih h'
      simp only [keys] at this
      simp [update, keys, h0, this]

lemma keys_update_of_not_key (m : List (K × V)) (k : K) (v : V) (h : lookup m k = none) :
    keys (update m k v) = keys m ++ [k] := by
  induction m with
  | nil => simp [update, keys]
  | cons e m ih =>
    obtain ⟨k0, v0⟩ := e
    by_cases h0 : k0 = k
    · subst h0; simp [lookup] at h
    · have h' : lookup m k = none := by simpa [lookup, h0] using h
      have := ih h'
      simp only [keys] at this
      simp [update, keys, h0, this]

end GoMap

/-! ## How the three kinds of parent-map updates act on parent chains -/

namespace Compressed

variable {T : Type} {p q : T → Option T}

lemma same (p : T → Option T) : Compressed p p := fun _ => Or.inl rfl

lemma root_iff (h : Compressed p q) (r : T) : q r = some r ↔ p r = some r := by
  constructor
  · intro hq
    rcases h r with h1 | ⟨r', k, h1, h2⟩
    · rw [← h1]; exact hq
    · rw [hq] at h1
      cases Option.some.inj h1
      exact h2.isRoot
  · intro hp
    rcases h r with h1 | ⟨r', k, _, h2⟩
    · rw [h1]; exact hp
    · exact absurd (ParentPath.of_root hp h2).1 (by omega)

lemma key_iff (h : Compressed p q) (y : T) : (∃ z, q y = some z) ↔ ∃ z, p y = some z := by
  rcases h y with h1 | ⟨r', k, h1, h2⟩
  · rw [h1]
  · exact ⟨fun _ => h2.isKey, fun _ => ⟨r', h1⟩⟩

lemma to_old (h : Compressed p q) {n : Nat} {x r : T} (hq : ParentPath q n x r) :
    ∃ m, n ≤ m ∧ ParentPath p m x r := by
  induction hq with
  | root hr => exact ⟨0, le_refl _, ParentPath.root ((h.root_iff _).1 hr)⟩
  | @step n x y r hxy hne _ ih =>
    obtain ⟨m, hm, hp⟩ := ih
    rcases h x with h1 | ⟨r', k, h1, h2⟩
    · rw [hxy] at h1
      exact ⟨m + 1, by omega, ParentPath.step h1.symm hne hp⟩
    · rw [hxy] at h1
      cases Option.some.inj h1
      obtain ⟨hm0, hr⟩ := ParentPath.of_root h2.isRoot hp
      subst hr
      exact ⟨k + 1, by omega, h2⟩

lemma of_old (h : Compressed p q) {n : Nat} {x r : T} (hp : ParentPath p n x r) :
    ∃ m, m ≤ n ∧ ParentPath q m x r := by
  induction hp with
  | root hr => exact ⟨0, le_refl _, ParentPath.root ((h.root_iff _).2 hr)⟩
  | @step n x y r hxy hne hp ih =>
    obtain ⟨m, hm, hq⟩ := ih
    rcases h x with h1 | ⟨r', k, h1, h2⟩
    · rw [hxy] at h1
      exact ⟨m + 1, by omega, ParentPath.step h1 hne hq⟩
    · have hr : r' = r := ParentPath.root_eq h2 (ParentPath.step hxy hne hp)
      subst hr
      have hroot := hp.isRoot
      have hrx : r' ≠ x := by
        intro e
        subst e
        rw [hroot] at hxy
        exact hne (Option.some.inj hxy).symm
      exact ⟨1, by omega, ParentPath.step h1 hrx (ParentPath.root ((h.root_iff _).2 hroot))⟩

lemma root_of_iff (h : Compressed p q) (x r : T) :
    (∃ n, ParentPath q n x r) ↔ ∃ n, ParentPath p n x r :=
  ⟨fun ⟨_, hq⟩ => let ⟨m, _, hp⟩ := h.to_old hq; ⟨m, hp⟩,
   fun ⟨_, hp⟩ => let ⟨m, _, hq⟩ := h.of_old hp; ⟨m, hq⟩⟩

lemma compose {s : T → Option T} (h1 : Compressed p q) (h2 : Compressed q s) : Compressed p s := by
  intro y
  rcases h2 y with e | ⟨r, k, e, hq⟩
  · rcases h1 y with e1 | ⟨r1, k1, e1, hp⟩
    · exact Or.inl (e.trans e1)
    · exact Or.inr ⟨r1, k1, e.trans e1, hp⟩
  · obtain ⟨m, hm, hp⟩ := h1.to_old hq
    obtain ⟨m', rfl⟩ : ∃ m', m = m' + 1 := ⟨m - 1, by omega⟩
    exact Or.inr ⟨r, m', e, hp⟩

end Compressed

namespace ParentPath

variable {T : Type} [DecidableEq T] {p q : T → Option T}

/-- Linking the root `a` under the root `b` keeps every chain that ends elsewhere. -/
lemma link_keep {a b : T} (ha : p a = some a)
    (hq : ∀ y, q y = if y = a then some b else p y)
    {n : Nat} {x r : T} (h : ParentPath p n x r) (hr : r ≠ a) : ParentPath q n x r := by
  induction h with
  | root hroot => exact ParentPath.root (by rw [hq, if_neg hr]; exact hroot)
  | @step n x y r hxy hne _ ih =>
    have hxa : x ≠ a := by
      intro e
      subst e
      rw [ha] at hxy
      exact hne (Option.some.inj hxy).symm
    exact ParentPath.step (by rw [hq, if_neg hxa]; exact hxy) hne (ih hr)

/-- Linking the root `a` under the root `b` extends every chain ending at `a` by one step. -/
lemma link_move {a b : T} (ha : p a = some a) (hb : p b = some b) (hab : a ≠ b)
    (hq : ∀ y, q y = if y = a then some b else p y)
    {n : Nat} {x : T} (h : ParentPath p n x a) : ParentPath q (n + 1) x b := by
  generalize hr : a = r at h
  induction h with
  | root _ =>
    subst hr
    refine ParentPath.step (by rw [hq, if_pos rfl]) (Ne.symm hab) (ParentPath.root ?_)
    rw [hq, if_neg (Ne.symm hab)]; exact hb
  | @step n x y r hxy hne _ ih =>
    subst hr
    have hxa : x ≠ a := by
      intro e
      subst e
      rw [ha] at hxy
      exact hne (Option.some.inj hxy).symm
    exact ParentPath.step (by rw [hq, if_neg hxa]; exact hxy) hne (ih rfl)

/-- Every chain after linking `a` under `b` is an old chain, or an old chain to `a`
extended by the new edge. -/
lemma link_inv {a b : T} (ha : p a = some a) (hb : p b = some b) (hab : a ≠ b)
    (hq : ∀ y, q y = if y = a then some b else p y)
    {n : Nat} {x r : T} (h : ParentPath q n x r) :
    (ParentPath p n x r ∧ r ≠ a) ∨ (∃ m, ParentPath p m x a ∧ r = b ∧ n = m + 1) := by
  induction h with
  | @root r hroot =>
    have hra : r ≠ a := by
      intro e
      subst e
      rw [hq, if_pos rfl] at hroot
      exact hab (Option.some.inj hroot).symm
    rw [hq, if_neg hra] at hroot
    exact Or.inl ⟨ParentPath.root hroot, hra⟩
  | @step n x y r hxy hne _ ih =>
    by_cases hxa : x = a
    · subst hxa
      rw [hq, if_pos rfl] at hxy
      cases Option.some.inj hxy
      rcases ih with ⟨h1, _⟩ | ⟨m, h1, _, _⟩
      · obtain ⟨hn, hr⟩ := ParentPath.of_root hb h1
        exact Or.inr ⟨0, ParentPath.root ha, hr, by omega⟩
      · exact absurd (ParentPath.of_root hb h1).2 hab
    · rw [hq, if_neg hxa] at hxy
      rcases ih with ⟨h1, h2⟩ | ⟨m, h1, h2, h3⟩
      · exact Or.inl ⟨ParentPath.step hxy hne h1, h2⟩
      · exact Or.inr ⟨m + 1, ParentPath.step hxy hne h1, h2, by omega⟩

/-- Registering a fresh key keeps every old chain. -/
lemma extend_keep {a : T} (ha : p a = none)
    (hq : ∀ y, q y = if y = a then some a else p y)
    {n : Nat} {x r : T} (h : ParentPath p n x r) : ParentPath q n x r := by
  induction h with
  | @root r hroot =>
    have hra : r ≠ a := by
      intro e; subst e; rw [ha] at hroot; cases hroot
    exact ParentPath.root (by rw [hq, if_neg hra]; exact hroot)
  | @step n x y r hxy hne _ ih =>
    have hxa : x ≠ a := by
      intro e; subst e; rw [ha] at hxy; cases hxy
    exact ParentPath.step (by rw [hq, if_neg hxa]; exact hxy) hne ih

/-- After registering the fresh key `a`, the only new chain is the trivial one at `a`. -/
lemma extend_inv {a : T} (ha : p a = none) (hcl : ∀ x y, p x = some y → ∃ z, p y = some z)
    (hq : ∀ y, q y = if y = a then some a else p y)
    {n : Nat} {x r : T} (h : ParentPath q n x r) :
    (x = a ∧ r = a ∧ n = 0) ∨ ParentPath p n x r := by
  induction h with
  | @root r hroot =>
    by_cases hra : r = a
    · exact Or.inl ⟨hra, hra, rfl⟩
    · rw [hq, if_neg hra] at hroot
      exact Or.inr (ParentPath.root hroot)
  | @step n x y r hxy hne _ ih =>
    have hxa : x ≠ a := by
      intro e
      subst e
      rw [hq, if_pos rfl] at hxy
      exact hne (Option.some.inj hxy).symm
    rw [hq, if_neg hxa] at hxy
    rcases ih with ⟨h1, _, _⟩ | h1
    · subst h1
      obtain ⟨z, hz⟩ := hcl _ _ hxy
      rw [ha] at hz
      cases hz
    · exact Or.inr (ParentPath.step hxy hne h1)

end ParentPath

namespace Unigo

variable {T : Type} [DecidableEq T] [Inhabited T]

/-! ## The lazy-initialisation guard -/

lemma ensureInit_of_alloc {s : Unigo T} {es : List (T × T)} {zs : List (T × Int)}
    (hid : s.id = some es) (hsz : s.sz = some zs) : ensureInit s = s := by
  simp [ensureInit, mapIntialized, hid, hsz]

lemma ensureInit_alloc (s : Unigo T) :
    ∃ es zs, (ensureInit s).id = some es ∧ (ensureInit s).sz = some zs := by
  rcases s with ⟨_ | es, _ | zs⟩ <;> simp [ensureInit, mapIntialized, initializeMap]

lemma ensureInit_idem (s : Unigo T) : ensureInit (ensureInit s) = ensureInit s := by
  obtain ⟨es, zs, h1, h2⟩ := ensureInit_alloc s
  exact ensureInit_of_alloc h1 h2

lemma par_ensureInit {s : Unigo T} (h : Allocated s) : par (ensureInit s) = par s := by
  rcases s with ⟨_ | es, _ | zs⟩ <;> first | rfl | (simp [Allocated] at h)

lemma size_ensureInit {s : Unigo T} (h : Allocated s) : size (ensureInit s) = size s := by
  rcases s with ⟨_ | es, _ | zs⟩ <;> first | rfl | (simp [Allocated] at h)

lemma regKeys_ensureInit {s : Unigo T} (h : Allocated s) : regKeys (ensureInit s) = regKeys s := by
  rcases s with ⟨_ | es, _ | zs⟩ <;> first | rfl | (simp [Allocated] at h)

lemma card_ensureInit {s : Unigo T} (h : Allocated s) : card (ensureInit s) = card s := by
  simp [card, regKeys_ensureInit h]

lemma allocated_ensureInit (s : Unigo T) : Allocated (ensureInit s) := by
  obtain ⟨es, zs, h1, h2⟩ := ensureInit_alloc s
  simp [Allocated, h1, h2]

lemma MakeSet_ensureInit (s : Unigo T) (x : T) : MakeSet (ensureInit s) x = MakeSet s x := by
  simp only [MakeSet, ensureInit_idem]

lemma Find_ensureInit (fuel : Nat) (s : Unigo T) (x : T) :
    Find fuel (ensureInit s) x = Find fuel s x := by
  simp only [Find, ensureInit_idem]

lemma Union_ensureInit (fuel : Nat) (s : Unigo T) (x y : T) :
    Union fuel (ensureInit s) x y = Union fuel s x y := by
  simp only [Union, ensureInit_idem]

lemma Connected_ensureInit (fuel : Nat) (s : Unigo T) (x y : T) :
    Connected fuel (ensureInit s) x y = Connected fuel s x y := by
  simp only [Connected, ensureInit_idem]

/-! ## Registered keys -/

lemma mem_regKeys_iff (s : Unigo T) (x : T) : x ∈ regKeys s ↔ ∃ y, par s x = some y := by
  rcases s with ⟨_ | es, sz⟩
  · simp [regKeys, par, GoMap.index?]
  · simpa [regKeys, par, GoMap.index?] using GoMap.mem_keys_iff es x

lemma index_eq_of_par {s : Unigo T} {x y : T} (h : par s x = some y) :
    GoMap.index s.id x = y := by
  simp only [par] at h
  simp [GoMap.index, h]

/-- A parent chain visits pairwise distinct registered keys, so it is shorter than
the number of registered elements. -/
lemma path_lt_card {s : Unigo T} {n : Nat} {x r : T} (h : ParentPath (par s) n x r) :
    n < card s := by
  obtain ⟨l, hl, hlen⟩ := Trail.ofPath h
  have hnd : (r :: l).Nodup := List.nodup_cons.2 ⟨hl.root_not_mem, hl.nodup⟩
  have hsub : (r :: l) ⊆ (regKeys s).dedup := by
    intro c hc
    rw [List.mem_dedup, mem_regKeys_iff]
    rcases List.mem_cons.1 hc with e | hc'
    · subst e; exact ⟨_, h.isRoot⟩
    · obtain ⟨k, _, hp⟩ := hl.mem_path hc'
      exact hp.isKey
  have := (hnd.subperm hsub).length_le
  simp only [List.length_cons] at this
  simp only [card]
  omega

/-! ## The two passes of `Find` -/

lemma findWalk_trail {id : Option (List (T × T))} {x r : T} {l : List T}
    (h : Trail (GoMap.index? id) x l r) :
    ∀ (fuel : Nat) (buf : List T), l.length ≤ fuel →
      findWalk id fuel x buf = some (r, buf ++ l) := by
  induction h with
  | @root r hr =>
    intro fuel buf _
    have hi : GoMap.index id r = r := by simp [GoMap.index, hr]
    rw [findWalk.eq_def]
    simp [hi]
  | @step x y r l hxy hne _ ih =>
    intro fuel buf hf
    have hi : GoMap.index id x = y := by simp [GoMap.index, hxy]
    obtain ⟨f, rfl⟩ : ∃ f, fuel = f + 1 := ⟨fuel - 1, by simp at hf; omega⟩
    rw [findWalk.eq_def]
    simp only [hi, ne_eq, hne, not_false_eq_true, if_true]
    rw [ih f (buf ++ [x]) (by simp at hf; omega)]
    simp

lemma writeBack_alloc (es : List (T × T)) (buf : List T) (r : T) :
    ∃ es', writeBack (some es) buf r = some (some es') ∧
      (∀ y, GoMap.lookup es' y = if y ∈ buf then some r else GoMap.lookup es y) ∧
      ((∀ c ∈ buf, ∃ w, GoMap.lookup es c = some w) → GoMap.keys es' = GoMap.keys es) := by
  induction buf generalizing es with
  | nil => exact ⟨es, rfl, by simp, fun _ => rfl⟩
  | cons val rest ih =>
    obtain ⟨es', h1, h2, h3⟩ := ih (GoMap.update es val r)
    refine ⟨es', by simpa [writeBack, GoMap.assign] using h1, ?_, ?_⟩
    · intro y
      rw [h2, GoMap.lookup_update]
      by_cases hy : y ∈ rest
      · simp [hy]
      · by_cases hv : y = val
        · simp [hv]
        · simp [hy, hv]
    · intro hk
      rw [h3, GoMap.keys_update_of_key _ _ _ (hk val (List.mem_cons_self _ _))]
      intro c hc
      rw [GoMap.lookup_update]
      by_cases hv : c = val
      · simp [hv]
      · simpa [hv] using hk c (List.mem_cons_of_mem _ hc)

end Unigo

namespace Unigo

variable {T : Type} [DecidableEq T] [Inhabited T]

/-! ## Specification of `Find` -/

lemma szEntry_ensureInit {s : Unigo T} (h : Allocated s) : szEntry (ensureInit s) = szEntry s := by
  rcases s with ⟨_ | es, _ | zs⟩ <;> first | rfl | (simp [Allocated] at h)

lemma size_eq_szEntry (s : Unigo T) (x : T) : size s x = (szEntry s x).getD 0 := rfl

lemma size_congr {s s' : Unigo T} (h : ∀ x, szEntry s' x = szEntry s x) (x : T) :
    size s' x = size s x := by
  rw [size_eq_szEntry, size_eq_szEntry, h]

lemma Compresses.ensure {s : Unigo T} (h : Allocated s) : Compresses s (ensureInit s) where
  alloc := ensureInit_alloc s
  parents := by rw [par_ensureInit h]; exact Compressed.same _
  sizes := fun x => by rw [szEntry_ensureInit h]
  keys := regKeys_ensureInit h

lemma Compresses.card_eq {s s' : Unigo T} (h : Compresses s s') : card s' = card s := by
  simp [card, h.keys]

lemma Compresses.allocated {s s' : Unigo T} (h : Compresses s s') : Allocated s' := by
  obtain ⟨es, zs, h1, h2⟩ := h.alloc
  simp [Allocated, h1, h2]

lemma Compresses.chain {s s1 s2 : Unigo T} (h1 : Compresses s s1) (h2 : Compresses s1 s2) :
    Compresses s s2 where
  alloc := h2.alloc
  parents := h1.parents.compose h2.parents
  sizes := fun x => (h2.sizes x).trans (h1.sizes x)
  keys := h2.keys.trans h1.keys

lemma Find_notFound {s : Unigo T} {item : T} (ha : Allocated s) (h : par s item = none)
    (fuel : Nat) :
    Find fuel s item = Outcome.ok ((default, some (Error.notFound item)), ensureInit s) := by
  have h' : GoMap.index? (ensureInit s).id item = none := by
    have := congrFun (par_ensureInit ha) item
    simp only [par] at this h
    rw [this, h]
  simp only [Find, h']

/-- On an allocated structure, `Find` on a key whose parent chain ends at `r`. -/
lemma Find_found_alloc {s : Unigo T} {es : List (T × T)} {zs : List (T × Int)}
    (hid : s.id = some es) (hsz : s.sz = some zs) {item p0 r : T} {l : List T}
    (hp0 : par s item = some p0) (ht : Trail (par s) p0 l r) {fuel : Nat}
    (hfuel : l.length ≤ fuel) :
    ∃ s', Find fuel s item = Outcome.ok ((r, none), s') ∧ Compresses s s' ∧
      ∀ y, par s' y = if y ∈ l then some r else par s y := by
  have hwalk : findWalk s.id fuel p0 [] = some (r, l) := by
    have := @findWalk_trail T _ _ s.id _ _ _ ht fuel [] hfuel
    simpa using this
  obtain ⟨es', hw1, hw2, hw3⟩ := writeBack_alloc es l r
  have hkeys : ∀ c ∈ l, ∃ w, GoMap.lookup es c = some w := by
    intro c hc
    obtain ⟨k, _, hp⟩ := ht.mem_path hc
    obtain ⟨w, hw⟩ := hp.isKey
    exact ⟨w, by simpa [par, hid, GoMap.index?] using hw⟩
  have hpar : ∀ y, par { s with id := some es' } y = if y ∈ l then some r else par s y := by
    intro y
    simp only [par, GoMap.index?, hid]
    exact hw2 y
  refine ⟨{ s with id := some es' }, ?_, ⟨⟨es', zs, rfl, hsz⟩, ?_, fun _ => rfl, ?_⟩, hpar⟩
  · have hi : GoMap.index? s.id item = some p0 := hp0
    simp only [Find, ensureInit_of_alloc hid hsz, hi, hwalk]
    rw [hid, hw1]
  · intro y
    rw [hpar]
    by_cases hy : y ∈ l
    · obtain ⟨k, _, hp⟩ := ht.mem_path hy
      exact Or.inr ⟨r, k, by simp [hy], hp⟩
    · exact Or.inl (by simp [hy])
  · simp only [regKeys, hid]
    exact hw3 hkeys

/-- Running `Find` on a registered key whose parent chain ends at `r` after `n` steps: with
fuel for `n - 1` loop iterations it returns `r`, and only compresses paths. -/
lemma Find_found {s : Unigo T} (ha : Allocated s) {item r : T} {n : Nat}
    (hp : ParentPath (par s) n item r) {fuel : Nat} (hfuel : n ≤ fuel + 1) :
    ∃ s', Find fuel s item = Outcome.ok ((r, none), s') ∧ Compresses s s' ∧
      ∃ p0 l, par s item = some p0 ∧ Trail (par s) p0 l r ∧ l.length = n - 1 ∧
        ∀ y, par s' y = if y ∈ l then some r else par s y := by
  obtain ⟨es, zs, hid, hsz⟩ := ensureInit_alloc s
  have hpe := par_ensureInit ha
  have key : ∃ p0 l, par s item = some p0 ∧ Trail (par s) p0 l r ∧ l.length = n - 1 := by
    cases hp with
    | root hr => exact ⟨item, [], hr, Trail.root hr, rfl⟩
    | step hxy hne hp' =>
      obtain ⟨l, hl, hlen⟩ := Trail.ofPath hp'
      exact ⟨_, l, hxy, hl, by simp [hlen]⟩
  obtain ⟨p0, l, hp0, ht, hlen⟩ := key
  have hp0' : par (ensureInit s) item = some p0 := by rw [hpe]; exact hp0
  have ht' : Trail (par (ensureInit s)) p0 l r := by rw [hpe]; exact ht
  have hfuel' : l.length ≤ fuel := by omega
  obtain ⟨s', h1, h2, h3⟩ := Find_found_alloc hid hsz hp0' ht' hfuel'
  rw [Find_ensureInit] at h1
  refine ⟨s', h1, (Compresses.ensure ha).chain h2, p0, l, hp0, ht, hlen, ?_⟩
  intro y
  rw [h3, hpe]

end Unigo

namespace Unigo

variable {T : Type} [DecidableEq T] [Inhabited T]

/-! ## Preservation of the invariant by the three kinds of state change -/

lemma Inv.empty : Inv (empty : Unigo T) where
  alloc := rfl
  forest := by
    intro x y h
    simp [par, Unigo.empty, GoMap.index?] at h
  sizes := by
    intro r h
    simp [par, Unigo.empty, GoMap.index?] at h

lemma Forest.forest_of_compresses {s s' : Unigo T} (hf : Forest s) (hc : Compresses s s') :
    Forest s' := by
  intro x y hxy
  have hkey : ∃ w, par s x = some w := (hc.parents.key_iff x).1 ⟨y, hxy⟩
  obtain ⟨w, hw⟩ := hkey
  obtain ⟨hcl, n, r, hp⟩ := hf x w hw
  refine ⟨?_, ?_⟩
  · rcases hc.parents x with h1 | ⟨r', k, h1, h2⟩
    · rw [hxy, hw] at h1
      cases Option.some.inj h1
      exact (hc.parents.key_iff _).2 hcl
    · rw [hxy] at h1
      cases Option.some.inj h1
      exact (hc.parents.key_iff _).2 ⟨_, h2.isRoot⟩
  · obtain ⟨m, _, hq⟩ := hc.parents.of_old hp
    exact ⟨m, r, hq⟩

lemma SizesOK.sizes_of_compresses {s s' : Unigo T} (hs : SizesOK s) (hc : Compresses s s') :
    SizesOK s' := by
  intro r hr
  obtain ⟨l, hnd, hmem, hlen⟩ := hs r ((hc.parents.root_iff r).1 hr)
  refine ⟨l, hnd, fun x => ?_, ?_⟩
  · rw [hmem, hc.parents.root_of_iff]
  · rw [size_congr hc.sizes, hlen]

lemma Inv.of_compresses {s s' : Unigo T} (hi : Inv s) (hc : Compresses s s') : Inv s' :=
  ⟨hc.allocated, hi.forest.forest_of_compresses hc, hi.sizes.sizes_of_compresses hc⟩

lemma Forest.closed {s : Unigo T} (hf : Forest s) :
    ∀ x y, par s x = some y → ∃ z, par s y = some z :=
  fun x y h => (hf x y h).1

lemma Extended.ext_allocated {s s' : Unigo T} {a : T} (he : Extended s s' a) : Allocated s' := by
  obtain ⟨es, zs, h1, h2⟩ := he.alloc
  simp [Allocated, h1, h2]

lemma Linked.link_allocated {s s' : Unigo T} {a b : T} (hl : Linked s s' a b) : Allocated s' := by
  obtain ⟨es, zs, h1, h2⟩ := hl.alloc
  simp [Allocated, h1, h2]

lemma Linked.link_card_eq {s s' : Unigo T} {a b : T} (hl : Linked s s' a b) : card s' = card s := by
  simp [card, hl.keys]

lemma Forest.forest_of_extended {s s' : Unigo T} {a : T} (hf : Forest s)
    (ha : par s a = none) (he : Extended s s' a) : Forest s' := by
  intro x y hxy
  by_cases hxa : x = a
  · subst hxa
    have hroot : par s' x = some x := by rw [he.parents, if_pos rfl]
    rw [hroot] at hxy
    cases Option.some.inj hxy
    exact ⟨⟨_, hroot⟩, 0, x, ParentPath.root hroot⟩
  · rw [he.parents, if_neg hxa] at hxy
    obtain ⟨⟨z, hz⟩, n, r, hp⟩ := hf x y hxy
    refine ⟨?_, n, r, ParentPath.extend_keep ha he.parents hp⟩
    rw [he.parents]
    by_cases hya : y = a
    · exact ⟨a, by rw [if_pos hya]⟩
    · exact ⟨z, by rw [if_neg hya]; exact hz⟩

lemma SizesOK.sizes_of_extended {s s' : Unigo T} {a : T} (hf : Forest s) (hs : SizesOK s)
    (ha : par s a = none) (he : Extended s s' a) : SizesOK s' := by
  intro r hr
  by_cases hra : r = a
  · subst hra
    refine ⟨[r], List.nodup_singleton _, fun x => ?_, ?_⟩
    · constructor
      · intro hx
        rw [List.mem_singleton.1 hx]
        exact ⟨0, ParentPath.root hr⟩
      · rintro ⟨n, hp⟩
        rcases ParentPath.extend_inv ha hf.closed he.parents hp with ⟨e, _, _⟩ | hp'
        · rw [e]; exact List.mem_singleton_self _
        · have := hp'.isRoot
          rw [ha] at this
          cases this
    · rw [size_eq_szEntry, he.sizes, if_pos rfl]
      rfl
  · have hr' : par s r = some r := by
      rw [he.parents, if_neg hra] at hr
      exact hr
    obtain ⟨l, hnd, hmem, hlen⟩ := hs r hr'
    refine ⟨l, hnd, fun x => ?_, ?_⟩
    · rw [hmem]
      constructor
      · rintro ⟨n, hp⟩
        exact ⟨n, ParentPath.extend_keep ha he.parents hp⟩
      · rintro ⟨n, hp⟩
        rcases ParentPath.extend_inv ha hf.closed he.parents hp with ⟨_, e, _⟩ | hp'
        · exact absurd e hra
        · exact ⟨n, hp'⟩
    · rw [size_eq_szEntry, he.sizes, if_neg hra, ← size_eq_szEntry, hlen]

lemma Inv.of_extended {s s' : Unigo T} {a : T} (hi : Inv s) (ha : par s a = none)
    (he : Extended s s' a) : Inv s' :=
  ⟨he.ext_allocated, hi.forest.forest_of_extended ha he, hi.sizes.sizes_of_extended hi.forest ha he⟩

lemma Forest.forest_of_linked {s s' : Unigo T} {a b : T} (hf : Forest s)
    (ha : par s a = some a) (hb : par s b = some b) (hab : a ≠ b) (hl : Linked s s' a b) :
    Forest s' := by
  have hb' : par s' b = some b := by rw [hl.parents, if_neg (Ne.symm hab)]; exact hb
  intro x y hxy
  have hkey : ∀ y z, par s y = some z → ∃ z', par s' y = some z' := by
    intro y z hz
    rw [hl.parents]
    by_cases hya : y = a
    · exact ⟨b, by rw [if_pos hya]⟩
    · exact ⟨z, by rw [if_neg hya]; exact hz⟩
  by_cases hxa : x = a
  · subst hxa
    rw [hl.parents, if_pos rfl] at hxy
    cases Option.some.inj hxy
    exact ⟨⟨_, hb'⟩, 1, _, ParentPath.link_move ha hb hab hl.parents (ParentPath.root ha)⟩
  · rw [hl.parents, if_neg hxa] at hxy
    obtain ⟨⟨z, hz⟩, n, r, hp⟩ := hf x y hxy
    refine ⟨hkey y z hz, ?_⟩
    by_cases hra : r = a
    · subst hra
      exact ⟨n + 1, b, ParentPath.link_move ha hb hab hl.parents hp⟩
    · exact ⟨n, r, ParentPath.link_keep ha hl.parents hp hra⟩

lemma SizesOK.sizes_of_linked {s s' : Unigo T} {a b : T} (hs : SizesOK s)
    (ha : par s a = some a) (hb : par s b = some b) (hab : a ≠ b) (hl : Linked s s' a b) :
    SizesOK s' := by
  intro r hr
  have hra : r ≠ a := by
    intro e
    subst e
    rw [hl.parents, if_pos rfl] at hr
    exact hab (Option.some.inj hr).symm
  have hr' : par s r = some r := by
    rw [hl.parents, if_neg hra] at hr
    exact hr
  by_cases hrb : r = b
  · subst hrb
    obtain ⟨la, hnda, hmema, hlena⟩ := hs a ha
    obtain ⟨lb, hndb, hmemb, hlenb⟩ := hs r hb
    refine ⟨lb ++ la, ?_, fun x => ?_, ?_⟩
    · refine List.nodup_append.2 ⟨hndb, hnda, ?_⟩
      intro x hxb hxa
      obtain ⟨n, hpb⟩ := (hmemb x).1 hxb
      obtain ⟨m, hpa⟩ := (hmema x).1 hxa
      exact hab (ParentPath.root_eq hpa hpb)
    · rw [List.mem_append, hmema, hmemb]
      constructor
      · rintro (⟨n, hp⟩ | ⟨n, hp⟩)
        · exact ⟨n, ParentPath.link_keep ha hl.parents hp hra⟩
        · exact ⟨n + 1, ParentPath.link_move ha hb hab hl.parents hp⟩
      · rintro ⟨n, hp⟩
        rcases ParentPath.link_inv ha hb hab hl.parents hp with ⟨hp', _⟩ | ⟨m, hp', _, _⟩
        · exact Or.inl ⟨n, hp'⟩
        · exact Or.inr ⟨m, hp'⟩
    · rw [size_eq_szEntry, hl.sizes, if_pos rfl, hlena, hlenb]
      simp
  · obtain ⟨l, hnd, hmem, hlen⟩ := hs r hr'
    refine ⟨l, hnd, fun x => ?_, ?_⟩
    · rw [hmem]
      constructor
      · rintro ⟨n, hp⟩
        exact ⟨n, ParentPath.link_keep ha hl.parents hp hra⟩
      · rintro ⟨n, hp⟩
        rcases ParentPath.link_inv ha hb hab hl.parents hp with ⟨hp', _⟩ | ⟨m, _, e, _⟩
        · exact ⟨n, hp'⟩
        · exact absurd e hrb
    · rw [size_eq_szEntry, hl.sizes, if_neg hrb, ← size_eq_szEntry, hlen]

lemma Inv.of_linked {s s' : Unigo T} {a b : T} (hi : Inv s) (ha : par s a = some a)
    (hb : par s b = some b) (hab : a ≠ b) (hl : Linked s s' a b) : Inv s' :=
  ⟨hl.link_allocated, hi.forest.forest_of_linked ha hb hab hl, hi.sizes.sizes_of_linked ha hb hab hl⟩

end Unigo

namespace Unigo

variable {T : Type} [DecidableEq T] [Inhabited T]

/-! ## Specification of `MakeSet` and of the merge step -/

lemma MakeSet_exists {s : Unigo T} {item w : T} (ha : Allocated s) (h : par s item = some w) :
    MakeSet s item = Outcome.ok (some (Error.alreadyExists item), ensureInit s) := by
  have h' : GoMap.index? (ensureInit s).id item = some w := by
    have := congrFun (par_ensureInit ha) item
    simp only [par] at this h
    rw [this, h]
  simp only [MakeSet, h']

lemma MakeSet_fresh {s : Unigo T} {item : T} (ha : Allocated s) (h : par s item = none) :
    ∃ s', MakeSet s item = Outcome.ok (none, s') ∧ Extended s s' item := by
  obtain ⟨es, zs, hid, hsz⟩ := ensureInit_alloc s
  have hpe := par_ensureInit ha
  have hse := szEntry_ensureInit ha
  have h' : GoMap.index? (ensureInit s).id item = none := by
    have := congrFun hpe item
    simp only [par] at this h
    rw [this, h]
  refine ⟨{ id := some (GoMap.update es item item), sz := some (GoMap.update zs item 1) }, ?_,
    ⟨⟨_, _, rfl, rfl⟩, fun y => ?_, fun y => ?_⟩⟩
  · simp only [MakeSet, h']
    simp [hid, hsz, GoMap.assign]
  · have := congrFun hpe y
    simp only [par, hid, GoMap.index?] at this
    simp only [par, GoMap.index?, GoMap.lookup_update]
    rw [this]
  · have := congrFun hse y
    simp only [szEntry, hsz, GoMap.index?] at this
    simp only [szEntry, GoMap.index?, GoMap.lookup_update]
    rw [this]

lemma regKeys_update_id {s : Unigo T} {es : List (T × T)} (hid : s.id = some es) {a b : T}
    {zs' : Option (List (T × Int))} (hk : ∃ w, par s a = some w) :
    regKeys { id := some (GoMap.update es a b), sz := zs' } = regKeys s := by
  have hk' : ∃ w, GoMap.lookup es a = some w := by
    simpa [par, hid, GoMap.index?] using hk
  simp only [regKeys, hid]
  exact GoMap.keys_update_of_key es a b hk'

lemma link_spec {s : Unigo T} {es : List (T × T)} {zs : List (T × Int)}
    (hid : s.id = some es) (hsz : s.sz = some zs) {r1 r2 : T}
    (hk1 : ∃ w, par s r1 = some w) (hk2 : ∃ w, par s r2 = some w) :
    ∃ s', link s r1 r2 = Outcome.ok ((r1, none), s') ∧
      ((size s r1 < size s r2 ∧ Linked s s' r1 r2) ∨
       (¬ size s r1 < size s r2 ∧ Linked s s' r2 r1)) := by
  by_cases hlt : size s r1 < size s r2
  · refine ⟨{ id := some (GoMap.update es r1 r2),
              sz := some (GoMap.update zs r2 (size s r2 + size s r1)) }, ?_,
      Or.inl ⟨hlt, ⟨_, _, rfl, rfl⟩, fun y => ?_, fun y => ?_, regKeys_update_id hid hk1⟩⟩
    · have hlt' : GoMap.index s.sz r1 < GoMap.index s.sz r2 := hlt
      simp only [link, if_pos hlt']
      simp [hid, hsz, GoMap.assign, size]
    · simp [par, GoMap.index?, GoMap.lookup_update, hid]
    · simp [szEntry, GoMap.index?, GoMap.lookup_update, hsz]
  · refine ⟨{ id := some (GoMap.update es r2 r1),
              sz := some (GoMap.update zs r1 (size s r1 + size s r2)) }, ?_,
      Or.inr ⟨hlt, ⟨_, _, rfl, rfl⟩, fun y => ?_, fun y => ?_, regKeys_update_id hid hk2⟩⟩
    · have hlt' : ¬ GoMap.index s.sz r1 < GoMap.index s.sz r2 := hlt
      simp only [link, if_neg hlt']
      simp [hid, hsz, GoMap.assign, size]
    · simp [par, GoMap.index?, GoMap.lookup_update, hid]
    · simp [szEntry, GoMap.index?, GoMap.lookup_update, hsz]

/-! ## `Find`: totality and case analysis -/

lemma findWalk_short {id : Option (List (T × T))} {x r : T} {l : List T}
    (h : Trail (GoMap.index? id) x l r) :
    ∀ (fuel : Nat) (buf : List T), fuel < l.length → findWalk id fuel x buf = none := by
  induction h with
  | @root r hr =>
    intro fuel buf hf
    simp at hf
  | @step x y r l hxy hne _ ih =>
    intro fuel buf hf
    have hi : GoMap.index id x = y := by simp [GoMap.index, hxy]
    rw [findWalk.eq_def]
    simp only [hi, ne_eq, hne, not_false_eq_true, if_true]
    cases fuel with
    | zero => rfl
    | succ f => exact ih f _ (by simp at hf; omega)

lemma Find_short {s : Unigo T} (ha : Allocated s) {item r : T} {n : Nat}
    (hp : ParentPath (par s) n item r) {fuel : Nat} (hfuel : fuel + 1 < n) :
    Find fuel s item = Outcome.fuelOut := by
  have hpe := par_ensureInit ha
  cases hp with
  | root hr => omega
  | @step n x y r hxy hne hp' =>
    obtain ⟨l, hl, hlen⟩ := Trail.ofPath hp'
    have hi : GoMap.index? (ensureInit s).id item = some y := by
      have := congrFun hpe item
      simp only [par] at this hxy
      rw [this, hxy]
    have hl' : Trail (GoMap.index? (ensureInit s).id) y l r := by
      have : par (ensureInit s) = GoMap.index? (ensureInit s).id := rfl
      rw [← this, hpe]
      exact hl
    have hw := findWalk_short hl' fuel [] (by omega)
    simp only [Find, hi, hw]

/-- Whenever `Find` returns on a forest, it has only compressed paths, and it has
reported either an unregistered item or the root that ends the item's chain. -/
lemma Find_cases {s s' : Unigo T} (ha : Allocated s) (hf : Forest s) {fuel : Nat} {item : T}
    {res : T × Option (Error T)} (h : Find fuel s item = Outcome.ok (res, s')) :
    Compresses s s' ∧
      ((par s item = none ∧ res = (default, some (Error.notFound item)) ∧ s' = ensureInit s) ∨
       (∃ n r p0 l, ParentPath (par s) n item r ∧ res = (r, none) ∧ par s item = some p0 ∧
          Trail (par s) p0 l r ∧ l.length = n - 1 ∧ l.length ≤ fuel ∧
          ∀ y, par s' y = if y ∈ l then some r else par s y)) := by
  cases hpi : par s item with
  | none =>
    rw [Find_notFound ha hpi] at h
    cases h
    exact ⟨Compresses.ensure ha, Or.inl ⟨rfl, rfl, rfl⟩⟩
  | some p0 =>
    obtain ⟨_, n, r, hp⟩ := hf item p0 hpi
    by_cases hfuel : n ≤ fuel + 1
    · obtain ⟨s1, h1, hc, p1, l, hp1, ht, hlen, hpar⟩ := Find_found ha hp hfuel
      rw [h1] at h
      cases h
      rw [hpi] at hp1
      cases Option.some.inj hp1
      exact ⟨hc, Or.inr ⟨n, r, p0, l, hp, rfl, rfl, ht, hlen, by omega, hpar⟩⟩
    · rw [Find_short ha hp (by omega)] at h
      cases h

lemma Find_total {s : Unigo T} (ha : Allocated s) (hf : Forest s) {fuel : Nat}
    (hfuel : card s ≤ fuel) (item : T) : ∃ res s', Find fuel s item = Outcome.ok (res, s') := by
  cases hpi : par s item with
  | none => exact ⟨_, _, Find_notFound ha hpi fuel⟩
  | some p0 =>
    obtain ⟨_, n, r, hp⟩ := hf item p0 hpi
    have := path_lt_card hp
    obtain ⟨s1, h1, _⟩ := Find_found ha hp (show n ≤ fuel + 1 by omega)
    exact ⟨_, _, h1⟩

end Unigo

namespace Unigo

variable {T : Type} [DecidableEq T] [Inhabited T]

/-! ## `Union` and `Connected`: case analysis and totality -/

/-- The outcome of two successive `Find` calls, as made by `Union` and `Connected`. -/
lemma Find_twice_cases {s s1 s2 : Unigo T} (ha : Allocated s) (hf : Forest s) {fuel : Nat}
    {item item2 r1 : T} {res2 : T × Option (Error T)}
    (h1 : Find fuel s item = Outcome.ok ((r1, none), s1))
    (h2 : Find fuel s1 item2 = Outcome.ok (res2, s2)) :
    ∃ n1, ParentPath (par s) n1 item r1 ∧ Compresses s s1 ∧ Compresses s s2 ∧
      ((par s item2 = none ∧ res2 = (default, some (Error.notFound item2))) ∨
       (∃ n2 r2, ParentPath (par s) n2 item2 r2 ∧ res2 = (r2, none))) := by
  obtain ⟨hc1, hcase1⟩ := Find_cases ha hf h1
  rcases hcase1 with ⟨_, hres, _⟩ | ⟨n1, r, p0, l, hp1, hres, _⟩
  · cases hres
  · cases hres
    obtain ⟨hc2, hcase2⟩ := Find_cases hc1.allocated (hf.forest_of_compresses hc1) h2
    refine ⟨n1, hp1, hc1, hc1.chain hc2, ?_⟩
    rcases hcase2 with ⟨hnone, hres, _⟩ | ⟨n2, r2, p0', l', hp2, hres, _⟩
    · left
      refine ⟨?_, hres⟩
      cases hps : par s item2 with
      | none => rfl
      | some w =>
        obtain ⟨z, hz⟩ := (hc1.parents.key_iff item2).2 ⟨w, hps⟩
        rw [hnone] at hz
        cases hz
    · right
      obtain ⟨m, _, hp⟩ := hc1.parents.to_old hp2
      exact ⟨m, r2, hp, hres⟩

lemma Union_cases {s s' : Unigo T} (ha : Allocated s) (hf : Forest s) {fuel : Nat}
    {item item2 : T} {res : T × Option (Error T)}
    (h : Union fuel s item item2 = Outcome.ok (res, s')) :
    UnionResult s item item2 res s' := by
  simp only [Union, Find_ensureInit] at h
  rcases hF1 : Find fuel s item with ⟨⟨r1, e1⟩, s1⟩ | _ | _
  · rw [hF1] at h
    cases e1 with
    | some e =>
      simp only at h
      cases h
      obtain ⟨_, hcase⟩ := Find_cases ha hf hF1
      rcases hcase with ⟨hnone, hres, hs⟩ | ⟨_, _, _, _, _, hres, _⟩
      · cases hres
        rw [hs]
        exact UnionResult.notFound1 hnone
      · cases hres
    | none =>
      simp only at h
      rcases hF2 : Find fuel s1 item2 with ⟨⟨r2, e2⟩, s2⟩ | _ | _
      · rw [hF2] at h
        obtain ⟨n1, hp1, hc1, hc2, hcase⟩ := Find_twice_cases ha hf hF1 hF2
        cases e2 with
        | some e =>
          simp only at h
          cases h
          rcases hcase with ⟨hnone, hres⟩ | ⟨_, _, _, hres⟩
          · cases hres
            exact UnionResult.notFound2 hp1 hnone hc2
          · cases hres
        | none =>
          simp only at h
          rcases hcase with ⟨_, hres⟩ | ⟨n2, r2', hp2, hres⟩
          · cases hres
          · cases hres
            by_cases hr : r1 = r2
            · rw [if_pos hr] at h
              cases h
              subst hr
              exact UnionResult.same hp1 hp2 hc2
            · rw [if_neg hr] at h
              obtain ⟨es, zs, hid, hsz⟩ := hc2.alloc
              obtain ⟨s3, hl, hlk⟩ := link_spec hid hsz
                ⟨r1, (hc2.parents.root_iff _).2 hp1.isRoot⟩
                ⟨r2, (hc2.parents.root_iff _).2 hp2.isRoot⟩
              rw [hl] at h
              cases h
              rw [size_congr hc2.sizes, size_congr hc2.sizes] at hlk
              rcases hlk with ⟨hlt, hlk⟩ | ⟨hge, hlk⟩
              · exact UnionResult.mergedLt hp1 hp2 hr hc2 hlt hlk
              · exact UnionResult.mergedGe hp1 hp2 hr hc2 hge hlk
      · rw [hF2] at h; cases h
      · rw [hF2] at h; cases h
  · rw [hF1] at h; cases h
  · rw [hF1] at h; cases h

lemma Union_total {s : Unigo T} (ha : Allocated s) (hf : Forest s) {fuel : Nat}
    (hfuel : card s ≤ fuel) (item item2 : T) :
    ∃ res s', Union fuel s item item2 = Outcome.ok (res, s') := by
  obtain ⟨⟨r1, e1⟩, s1, hF1⟩ := Find_total ha hf hfuel item
  simp only [Union, Find_ensureInit, hF1]
  cases e1 with
  | some e => exact ⟨_, _, rfl⟩
  | none =>
    obtain ⟨hc1, _⟩ := Find_cases ha hf hF1
    obtain ⟨⟨r2, e2⟩, s2, hF2⟩ :=
      Find_total hc1.allocated (hf.forest_of_compresses hc1)
        (show card s1 ≤ fuel by rw [hc1.card_eq]; exact hfuel) item2
    simp only [hF2]
    cases e2 with
    | some e => exact ⟨_, _, rfl⟩
    | none =>
      simp only
      by_cases hr : r1 = r2
      · rw [if_pos hr]; exact ⟨_, _, rfl⟩
      · rw [if_neg hr]
        obtain ⟨n1, hp1, _, hc2, hcase⟩ := Find_twice_cases ha hf hF1 hF2
        rcases hcase with ⟨_, hres⟩ | ⟨n2, r2', hp2, hres⟩
        · cases hres
        · cases hres
          obtain ⟨es, zs, hid, hsz⟩ := hc2.alloc
          obtain ⟨s3, hl, _⟩ := link_spec hid hsz
            ⟨r1, (hc2.parents.root_iff _).2 hp1.isRoot⟩
            ⟨r2, (hc2.parents.root_iff _).2 hp2.isRoot⟩
          exact ⟨_, _, hl⟩

lemma Connected_cases {s s' : Unigo T} (ha : Allocated s) (hf : Forest s) {fuel : Nat}
    {item item2 : T} {res : Bool × Option (Error T)}
    (h : Connected fuel s item item2 = Outcome.ok (res, s')) :
    ConnectedResult s item item2 res s' := by
  simp only [Connected, Find_ensureInit] at h
  rcases hF1 : Find fuel s item with ⟨⟨r1, e1⟩, s1⟩ | _ | _
  · rw [hF1] at h
    cases e1 with
    | some e =>
      simp only at h
      cases h
      obtain ⟨_, hcase⟩ := Find_cases ha hf hF1
      rcases hcase with ⟨hnone, hres, hs⟩ | ⟨_, _, _, _, _, hres, _⟩
      · cases hres
        rw [hs]
        exact ConnectedResult.notFound1 hnone
      · cases hres
    | none =>
      simp only at h
      rcases hF2 : Find fuel s1 item2 with ⟨⟨r2, e2⟩, s2⟩ | _ | _
      · rw [hF2] at h
        obtain ⟨n1, hp1, hc1, hc2, hcase⟩ := Find_twice_cases ha hf hF1 hF2
        cases e2 with
        | some e =>
          simp only at h
          cases h
          rcases hcase with ⟨hnone, hres⟩ | ⟨_, _, _, hres⟩
          · cases hres
            exact ConnectedResult.notFound2 hp1 hnone hc2
          · cases hres
        | none =>
          simp only at h
          cases h
          rcases hcase with ⟨_, hres⟩ | ⟨n2, r2', hp2, hres⟩
          · cases hres
          · cases hres
            exact ConnectedResult.found hp1 hp2 hc2
      · rw [hF2] at h; cases h
      · rw [hF2] at h; cases h
  · rw [hF1] at h; cases h
  · rw [hF1] at h; cases h

lemma Connected_total {s : Unigo T} (ha : Allocated s) (hf : Forest s) {fuel : Nat}
    (hfuel : card s ≤ fuel) (item item2 : T) :
    ∃ res s', Connected fuel s item item2 = Outcome.ok (res, s') := by
  obtain ⟨⟨r1, e1⟩, s1, hF1⟩ := Find_total ha hf hfuel item
  simp only [Connected, Find_ensureInit, hF1]
  cases e1 with
  | some e => exact ⟨_, _, rfl⟩
  | none =>
    obtain ⟨hc1, _⟩ := Find_cases ha hf hF1
    obtain ⟨⟨r2, e2⟩, s2, hF2⟩ :=
      Find_total hc1.allocated (hf.forest_of_compresses hc1)
        (show card s1 ≤ fuel by rw [hc1.card_eq]; exact hfuel) item2
    simp only [hF2]
    cases e2 with
    | some e => exact ⟨_, _, rfl⟩
    | none => exact ⟨_, _, rfl⟩

/-! ## Every reachable state satisfies the invariant -/

lemma UnionResult.forest {s s' : Unigo T} {item item2 : T} {res : T × Option (Error T)}
    (ha : Allocated s) (hf : Forest s) (h : UnionResult s item item2 res s') : Forest s' := by
  cases h with
  | notFound1 _ => exact hf.forest_of_compresses (Compresses.ensure ha)
  | notFound2 _ _ hc => exact hf.forest_of_compresses hc
  | same _ _ hc => exact hf.forest_of_compresses hc
  | mergedLt hp1 hp2 hne hc _ hl =>
    exact (hf.forest_of_compresses hc).forest_of_linked ((hc.parents.root_iff _).2 hp1.isRoot)
      ((hc.parents.root_iff _).2 hp2.isRoot) hne hl
  | mergedGe hp1 hp2 hne hc _ hl =>
    exact (hf.forest_of_compresses hc).forest_of_linked ((hc.parents.root_iff _).2 hp2.isRoot)
      ((hc.parents.root_iff _).2 hp1.isRoot) (Ne.symm hne) hl

lemma UnionResult.preserves_inv {s s' : Unigo T} {item item2 : T} {res : T × Option (Error T)}
    (hi : Inv s) (h : UnionResult s item item2 res s') : Inv s' := by
  cases h with
  | notFound1 _ => exact hi.of_compresses (Compresses.ensure hi.alloc)
  | notFound2 _ _ hc => exact hi.of_compresses hc
  | same _ _ hc => exact hi.of_compresses hc
  | mergedLt hp1 hp2 hne hc _ hl =>
    exact (hi.of_compresses hc).of_linked ((hc.parents.root_iff _).2 hp1.isRoot)
      ((hc.parents.root_iff _).2 hp2.isRoot) hne hl
  | mergedGe hp1 hp2 hne hc _ hl =>
    exact (hi.of_compresses hc).of_linked ((hc.parents.root_iff _).2 hp2.isRoot)
      ((hc.parents.root_iff _).2 hp1.isRoot) (Ne.symm hne) hl

lemma UnionResult.keys_eq {s s' : Unigo T} {item item2 : T} {res : T × Option (Error T)}
    (ha : Allocated s) (h : UnionResult s item item2 res s') : regKeys s' = regKeys s := by
  cases h with
  | notFound1 _ => exact regKeys_ensureInit ha
  | notFound2 _ _ hc => exact hc.keys
  | same _ _ hc => exact hc.keys
  | mergedLt _ _ _ hc _ hl => exact hl.keys.trans hc.keys
  | mergedGe _ _ _ hc _ hl => exact hl.keys.trans hc.keys

lemma ConnectedResult.compresses {s s' : Unigo T} {item item2 : T}
    {res : Bool × Option (Error T)} (ha : Allocated s)
    (h : ConnectedResult s item item2 res s') : Compresses s s' := by
  cases h with
  | notFound1 _ => exact Compresses.ensure ha
  | notFound2 _ _ hc => exact hc
  | found _ _ hc => exact hc

lemma MakeSet_forest {s s' : Unigo T} {item : T} {e : Option (Error T)} (ha : Allocated s)
    (hf : Forest s) (h : MakeSet s item = Outcome.ok (e, s')) : Forest s' := by
  cases hpi : par s item with
  | none =>
    obtain ⟨s1, h1, he⟩ := MakeSet_fresh ha hpi
    rw [h1] at h
    cases h
    exact hf.forest_of_extended hpi he
  | some w =>
    rw [MakeSet_exists ha hpi] at h
    cases h
    exact hf.forest_of_compresses (Compresses.ensure ha)

lemma MakeSet_inv {s s' : Unigo T} {item : T} {e : Option (Error T)} (hi : Inv s)
    (h : MakeSet s item = Outcome.ok (e, s')) : Inv s' := by
  cases hpi : par s item with
  | none =>
    obtain ⟨s1, h1, he⟩ := MakeSet_fresh hi.alloc hpi
    rw [h1] at h
    cases h
    exact hi.of_extended hpi he
  | some w =>
    rw [MakeSet_exists hi.alloc hpi] at h
    cases h
    exact hi.of_compresses (Compresses.ensure hi.alloc)

lemma MakeSet_total (s : Unigo T) (item : T) : ∃ e s', MakeSet s item = Outcome.ok (e, s') := by
  rw [← MakeSet_ensureInit]
  have ha := allocated_ensureInit s
  cases hpi : par (ensureInit s) item with
  | none =>
    obtain ⟨s1, h1, _⟩ := MakeSet_fresh ha hpi
    exact ⟨_, _, h1⟩
  | some w => exact ⟨_, _, MakeSet_exists ha hpi⟩

lemma Reachable.inv {s : Unigo T} (h : Reachable s) : Inv s := by
  induction h with
  | empty => exact Inv.empty
  | makeSet _ hop ih => exact MakeSet_inv ih hop
  | find _ hop ih => exact ih.of_compresses (Find_cases ih.alloc ih.forest hop).1
  | union _ hop ih => exact (Union_cases ih.alloc ih.forest hop).preserves_inv ih
  | connected _ hop ih =>
    exact ih.of_compresses ((Connected_cases ih.alloc ih.forest hop).compresses ih.alloc)

end Unigo

namespace Unigo

variable {T : Type} [DecidableEq T] [Inhabited T]

/-! ## Reachability of concrete states -/

lemma Reachable.of_call {s s' : Unigo T} {fuel : Nat} {c : Call T} (hr : Reachable s)
    (h : c.run fuel s = Outcome.ok s') : Reachable s' := by
  cases c with
  | makeSet item =>
    simp only [Call.run] at h
    rcases hop : MakeSet s item with ⟨e, s1⟩ | _ | _
    · rw [hop] at h; cases h; exact Reachable.makeSet hr hop
    · rw [hop] at h; cases h
    · rw [hop] at h; cases h
  | find item =>
    simp only [Call.run] at h
    rcases hop : Find fuel s item with ⟨e, s1⟩ | _ | _
    · rw [hop] at h; cases h; exact Reachable.find hr hop
    · rw [hop] at h; cases h
    · rw [hop] at h; cases h
  | union item item2 =>
    simp only [Call.run] at h
    rcases hop : Union fuel s item item2 with ⟨e, s1⟩ | _ | _
    · rw [hop] at h; cases h; exact Reachable.union hr hop
    · rw [hop] at h; cases h
    · rw [hop] at h; cases h
  | connected item item2 =>
    simp only [Call.run] at h
    rcases hop : Connected fuel s item item2 with ⟨e, s1⟩ | _ | _
    · rw [hop] at h; cases h; exact Reachable.connected hr hop
    · rw [hop] at h; cases h
    · rw [hop] at h; cases h

lemma Reachable.of_calls {fuel : Nat} {cs : List (Call T)} :
    ∀ {s s' : Unigo T}, Reachable s → runCalls fuel cs s = Outcome.ok s' → Reachable s' := by
  induction cs with
  | nil =>
    intro s s' hr h
    simp only [runCalls] at h
    cases h
    exact hr
  | cons c cs ih =>
    intro s s' hr h
    simp only [runCalls] at h
    rcases hc : c.run fuel s with s1 | _ | _
    · rw [hc] at h
      exact ih (hr.of_call hc) h
    · rw [hc] at h; cases h
    · rw [hc] at h; cases h

set_option maxRecDepth 100000 in
lemma pair12_reachable : Reachable pair12 :=
  Reachable.of_calls Reachable.empty
    (show runCalls 0 [Call.makeSet 1, Call.makeSet 2] empty = Outcome.ok pair12 from rfl)

set_option maxRecDepth 100000 in
lemma trio_reachable : Reachable trio :=
  Reachable.of_calls Reachable.empty
    (show runCalls 0 [Call.makeSet 1, Call.makeSet 2, Call.makeSet 3] empty = Outcome.ok trio
      from rfl)

set_option maxRecDepth 100000 in
lemma trio12_reachable : Reachable trio12 :=
  Reachable.of_calls trio_reachable
    (show runCalls 3 [Call.union 1 2] trio = Outcome.ok trio12 from rfl)

set_option maxRecDepth 100000 in
lemma trio23_reachable : Reachable trio23 :=
  Reachable.of_calls trio_reachable
    (show runCalls 3 [Call.union 2 3] trio = Outcome.ok trio23 from rfl)

set_option maxRecDepth 100000 in
lemma tree4_reachable : Reachable tree4 :=
  Reachable.of_calls Reachable.empty
    (show runCalls 4 [Call.makeSet 1, Call.makeSet 2, Call.makeSet 3, Call.makeSet 4,
        Call.union 1 2, Call.union 3 4, Call.union 1 3] empty = Outcome.ok tree4 from rfl)

set_option maxRecDepth 100000 in
lemma octet_reachable : Reachable octet :=
  Reachable.of_calls Reachable.empty
    (show runCalls 0 [Call.makeSet 1, Call.makeSet 2, Call.makeSet 3, Call.makeSet 4,
        Call.makeSet 5, Call.makeSet 6, Call.makeSet 7, Call.makeSet 8] empty
        = Outcome.ok octet from rfl)

set_option maxRecDepth 100000 in
lemma octetA_reachable : Reachable octetA :=
  Reachable.of_calls octet_reachable
    (show runCalls 8 [Call.union 1 2, Call.union 3 4, Call.union 1 3] octet
        = Outcome.ok octetA from rfl)

set_option maxRecDepth 100000 in
lemma octetB_reachable : Reachable octetB :=
  Reachable.of_calls octetA_reachable
    (show runCalls 8 [Call.union 5 6, Call.union 7 8, Call.union 5 7] octetA
        = Outcome.ok octetB from rfl)

set_option maxRecDepth 100000 in
lemma tree8_reachable : Reachable tree8 :=
  Reachable.of_calls octetB_reachable
    (show runCalls 8 [Call.union 1 5] octetB = Outcome.ok tree8 from rfl)

end Unigo

namespace Unigo

variable {T : Type} [DecidableEq T] [Inhabited T]

/-! ## Roots and the partition induced by the parent map -/

lemma RootOf.root_unique {s : Unigo T} {x r r' : T} (h1 : RootOf s x r) (h2 : RootOf s x r') :
    r = r' := by
  obtain ⟨n, hn⟩ := h1
  obtain ⟨m, hm⟩ := h2
  exact ParentPath.root_eq hn hm

lemma RootOf.mem_regKeys {s : Unigo T} {x r : T} (h : RootOf s x r) : x ∈ regKeys s := by
  obtain ⟨n, hn⟩ := h
  exact (mem_regKeys_iff s x).2 hn.isKey

lemma RootOf.root_self {s : Unigo T} {x r : T} (h : RootOf s x r) : RootOf s r r := by
  obtain ⟨n, hn⟩ := h
  exact ⟨0, ParentPath.root hn.isRoot⟩

lemma RootOf.par_root {s : Unigo T} {x r : T} (h : RootOf s x r) : par s r = some r := by
  obtain ⟨n, hn⟩ := h
  exact hn.isRoot

lemma Forest.rootOf_exists {s : Unigo T} (hf : Forest s) {x : T} (hx : x ∈ regKeys s) :
    ∃ r, RootOf s x r := by
  obtain ⟨y, hy⟩ := (mem_regKeys_iff s x).1 hx
  obtain ⟨_, n, r, hp⟩ := hf x y hy
  exact ⟨r, n, hp⟩

lemma Compresses.rootOf_iff {s s' : Unigo T} (hc : Compresses s s') (x r : T) :
    RootOf s' x r ↔ RootOf s x r :=
  hc.parents.root_of_iff x r

lemma Compresses.sameRoot_iff {s s' : Unigo T} (hc : Compresses s s') (x y : T) :
    SameRoot s' x y ↔ SameRoot s x y := by
  simp only [SameRoot, hc.rootOf_iff]

lemma Linked.link_rootOf_iff {s s' : Unigo T} {a b : T} (hl : Linked s s' a b)
    (ha : par s a = some a) (hb : par s b = some b) (hab : a ≠ b) (x r : T) :
    RootOf s' x r ↔ (RootOf s x r ∧ r ≠ a) ∨ (RootOf s x a ∧ r = b) := by
  constructor
  · rintro ⟨n, hp⟩
    rcases ParentPath.link_inv ha hb hab hl.parents hp with ⟨hp', hne⟩ | ⟨m, hp', e, _⟩
    · exact Or.inl ⟨⟨n, hp'⟩, hne⟩
    · exact Or.inr ⟨⟨m, hp'⟩, e⟩
  · rintro (⟨⟨n, hp⟩, hne⟩ | ⟨⟨n, hp⟩, e⟩)
    · exact ⟨n, ParentPath.link_keep ha hl.parents hp hne⟩
    · subst e
      exact ⟨n + 1, ParentPath.link_move ha hb hab hl.parents hp⟩

lemma sameRoot_iff_rootOf {s : Unigo T} {a r : T} (h : RootOf s a r) (x : T) :
    SameRoot s x a ↔ RootOf s x r := by
  constructor
  · rintro ⟨r', hx, ha⟩
    rw [h.root_unique ha]
    exact hx
  · intro hx
    exact ⟨r, hx, h⟩

/-- Compressing and then linking the root `a` under the root `b` merges exactly the
two sets rooted at `a` and `b`. -/
lemma merge_sameRoot_iff {s s2 s' : Unigo T} {a b : T} (hc : Compresses s s2)
    (hl : Linked s2 s' a b) (ha : par s a = some a) (hb : par s b = some b) (hab : a ≠ b)
    (x y : T) :
    SameRoot s' x y ↔
      SameRoot s x y ∨ (RootOf s x a ∧ RootOf s y b) ∨ (RootOf s x b ∧ RootOf s y a) := by
  have ha2 := (hc.parents.root_iff a).2 ha
  have hb2 := (hc.parents.root_iff b).2 hb
  simp only [SameRoot, hl.link_rootOf_iff ha2 hb2 hab, hc.rootOf_iff]
  constructor
  · rintro ⟨r, (⟨hx, hne⟩ | ⟨hx, e⟩), (⟨hy, hne'⟩ | ⟨hy, e'⟩)⟩
    · exact Or.inl ⟨r, hx, hy⟩
    · subst e'
      exact Or.inr (Or.inr ⟨hx, hy⟩)
    · subst e
      exact Or.inr (Or.inl ⟨hx, hy⟩)
    · exact Or.inl ⟨a, hx, hy⟩
  · rintro (⟨r, hx, hy⟩ | ⟨hx, hy⟩ | ⟨hx, hy⟩)
    · by_cases hra : r = a
      · subst hra
        exact ⟨b, Or.inr ⟨hx, rfl⟩, Or.inr ⟨hy, rfl⟩⟩
      · exact ⟨r, Or.inl ⟨hx, hra⟩, Or.inl ⟨hy, hra⟩⟩
    · exact ⟨b, Or.inr ⟨hx, rfl⟩, Or.inl ⟨hy, Ne.symm hab⟩⟩
    · exact ⟨b, Or.inl ⟨hx, Ne.symm hab⟩, Or.inr ⟨hy, rfl⟩⟩

/-- What a successful `Union a b` does to the partition. -/
lemma UnionResult.sameRoot_after {s s' : Unigo T} {a b r : T}
    (h : UnionResult s a b (r, none) s') (x y : T) :
    SameRoot s' x y ↔
      SameRoot s x y ∨ (SameRoot s x a ∧ SameRoot s y b) ∨ (SameRoot s x b ∧ SameRoot s y a) := by
  generalize hres : ((r, none) : T × Option (Error T)) = res at h
  cases h with
  | notFound1 _ => cases hres
  | notFound2 _ _ _ => cases hres
  | @same n1 n2 r' s2 hp1 hp2 hc =>
    have h1 : RootOf s a r' := ⟨n1, hp1⟩
    have h2 : RootOf s b r' := ⟨n2, hp2⟩
    simp only [hc.sameRoot_iff, sameRoot_iff_rootOf h1, sameRoot_iff_rootOf h2]
    constructor
    · exact Or.inl
    · rintro (h | ⟨hx, hy⟩ | ⟨hx, hy⟩)
      · exact h
      · exact ⟨r', hx, hy⟩
      · exact ⟨r', hx, hy⟩
  | @mergedLt n1 n2 r1 r2 s2 s3 hp1 hp2 hne hc _ hl =>
    have h1 : RootOf s a r1 := ⟨n1, hp1⟩
    have h2 : RootOf s b r2 := ⟨n2, hp2⟩
    simp only [merge_sameRoot_iff hc hl hp1.isRoot hp2.isRoot hne, sameRoot_iff_rootOf h1,
      sameRoot_iff_rootOf h2]
  | @mergedGe n1 n2 r1 r2 s2 s3 hp1 hp2 hne hc _ hl =>
    have h1 : RootOf s a r1 := ⟨n1, hp1⟩
    have h2 : RootOf s b r2 := ⟨n2, hp2⟩
    simp only [merge_sameRoot_iff hc hl hp2.isRoot hp1.isRoot (Ne.symm hne),
      sameRoot_iff_rootOf h1, sameRoot_iff_rootOf h2]
    constructor
    · rintro (h | h | h)
      · exact Or.inl h
      · exact Or.inr (Or.inr h)
      · exact Or.inr (Or.inl h)
    · rintro (h | h | h)
      · exact Or.inl h
      · exact Or.inr (Or.inr h)
      · exact Or.inr (Or.inl h)

lemma UnionResult.success_roots {s s' : Unigo T} {a b r : T}
    (h : UnionResult s a b (r, none) s') : ∃ r1 r2, RootOf s a r1 ∧ RootOf s b r2 := by
  generalize hres : ((r, none) : T × Option (Error T)) = res at h
  cases h with
  | notFound1 _ => cases hres
  | notFound2 _ _ _ => cases hres
  | same hp1 hp2 _ => exact ⟨_, _, ⟨_, hp1⟩, ⟨_, hp2⟩⟩
  | mergedLt hp1 hp2 _ _ _ _ => exact ⟨_, _, ⟨_, hp1⟩, ⟨_, hp2⟩⟩
  | mergedGe hp1 hp2 _ _ _ _ => exact ⟨_, _, ⟨_, hp1⟩, ⟨_, hp2⟩⟩

/-! ## `Connected` and `Union` on registered elements -/

lemma Connected_found {s : Unigo T} (ha : Allocated s) (hf : Forest s) {fuel : Nat}
    (hfuel : card s ≤ fuel) {x y r1 r2 : T} (h1 : RootOf s x r1) (h2 : RootOf s y r2) :
    ∃ s', Connected fuel s x y = Outcome.ok ((decide (r1 = r2), none), s') ∧
      Compresses s s' := by
  obtain ⟨res, s', hop⟩ := Connected_total ha hf hfuel x y
  have hres := Connected_cases ha hf hop
  cases hres with
  | notFound1 hnone =>
    obtain ⟨n, hp⟩ := h1
    obtain ⟨w, hw⟩ := hp.isKey
    rw [hnone] at hw; cases hw
  | notFound2 _ hnone _ =>
    obtain ⟨n, hp⟩ := h2
    obtain ⟨w, hw⟩ := hp.isKey
    rw [hnone] at hw; cases hw
  | @found n1 n2 r1' r2' s2 hp1 hp2 hc =>
    have e1 : r1' = r1 := RootOf.root_unique ⟨n1, hp1⟩ h1
    have e2 : r2' = r2 := RootOf.root_unique ⟨n2, hp2⟩ h2
    subst e1 e2
    exact ⟨_, hop, hc⟩

lemma ConnectedTrue.sameRoot {s : Unigo T} (ha : Allocated s) (hf : Forest s) {fuel : Nat}
    {x y : T} (h : ConnectedTrue fuel s x y) : SameRoot s x y := by
  obtain ⟨s', hop⟩ := h
  have hres := Connected_cases ha hf hop
  generalize hr : ((true, none) : Bool × Option (Error T)) = res at hres
  cases hres with
  | notFound1 _ => cases hr
  | notFound2 _ _ _ => cases hr
  | @found n1 n2 r1 r2 s2 hp1 hp2 hc =>
    have : decide (r1 = r2) = true := by
      have := congrArg Prod.fst hr
      exact this.symm
    have e : r1 = r2 := of_decide_eq_true this
    subst e
    exact ⟨r1, ⟨n1, hp1⟩, ⟨n2, hp2⟩⟩

lemma connectedTrue_iff {s : Unigo T} (ha : Allocated s) (hf : Forest s) {fuel : Nat}
    (hfuel : card s ≤ fuel) (x y : T) : ConnectedTrue fuel s x y ↔ SameRoot s x y := by
  constructor
  · exact ConnectedTrue.sameRoot ha hf
  · rintro ⟨r, hx, hy⟩
    obtain ⟨s', hop, _⟩ := Connected_found ha hf hfuel hx hy
    rw [decide_eq_true rfl] at hop
    exact ⟨s', hop⟩

lemma Union_merge {s : Unigo T} (ha : Allocated s) (hf : Forest s) {fuel : Nat}
    (hfuel : card s ≤ fuel) {a b r1 r2 : T} (h1 : RootOf s a r1) (h2 : RootOf s b r2)
    (hne : r1 ≠ r2) :
    ∃ s2 s', Union fuel s a b = Outcome.ok ((r1, none), s') ∧ Compresses s s2 ∧
      ((size s r1 < size s r2 ∧ Linked s2 s' r1 r2) ∨
       (¬ size s r1 < size s r2 ∧ Linked s2 s' r2 r1)) := by
  obtain ⟨res, s', hop⟩ := Union_total ha hf hfuel a b
  have hres := Union_cases ha hf hop
  cases hres with
  | notFound1 hnone =>
    obtain ⟨n, hp⟩ := h1
    obtain ⟨w, hw⟩ := hp.isKey
    rw [hnone] at hw; cases hw
  | notFound2 _ hnone _ =>
    obtain ⟨n, hp⟩ := h2
    obtain ⟨w, hw⟩ := hp.isKey
    rw [hnone] at hw; cases hw
  | @same n1 n2 r s2 hp1 hp2 hc =>
    have e1 : r = r1 := RootOf.root_unique ⟨n1, hp1⟩ h1
    have e2 : r = r2 := RootOf.root_unique ⟨n2, hp2⟩ h2
    exact absurd (e1.symm.trans e2) hne
  | @mergedLt n1 n2 r1' r2' s2 s3 hp1 hp2 _ hc hlt hl =>
    have e1 : r1' = r1 := RootOf.root_unique ⟨n1, hp1⟩ h1
    have e2 : r2' = r2 := RootOf.root_unique ⟨n2, hp2⟩ h2
    subst e1 e2
    exact ⟨s2, _, hop, hc, Or.inl ⟨hlt, hl⟩⟩
  | @mergedGe n1 n2 r1' r2' s2 s3 hp1 hp2 _ hc hge hl =>
    have e1 : r1' = r1 := RootOf.root_unique ⟨n1, hp1⟩ h1
    have e2 : r2' = r2 := RootOf.root_unique ⟨n2, hp2⟩ h2
    subst e1 e2
    exact ⟨s2, _, hop, hc, Or.inr ⟨hge, hl⟩⟩

end Unigo

namespace Unigo

variable {T : Type} [DecidableEq T] [Inhabited T]

/-! ## The guard on states that are not allocated -/

lemma ensureInit_cases (s : Unigo T) :
    (Allocated s ∧ par (ensureInit s) = par s ∧ regKeys (ensureInit s) = regKeys s) ∨
    ensureInit s = { id := some [], sz := some [] } := by
  rcases s with ⟨_ | es, _ | zs⟩
  · exact Or.inr rfl
  · exact Or.inr rfl
  · exact Or.inr rfl
  · exact Or.inl ⟨rfl, rfl, rfl⟩

lemma Forest.forest_ensure {s : Unigo T} (hf : Forest s) : Forest (ensureInit s) := by
  rcases ensureInit_cases s with ⟨ha, _, _⟩ | h
  · exact hf.forest_of_compresses (Compresses.ensure ha)
  · rw [h]
    intro x y hxy
    simp [par, GoMap.index?, GoMap.lookup] at hxy

lemma card_ensureInit_le (s : Unigo T) : card (ensureInit s) ≤ card s := by
  rcases ensureInit_cases s with ⟨_, _, hk⟩ | h
  · simp [card, hk]
  · rw [h]
    simp [card, regKeys, GoMap.keys]

end Unigo


namespace Unigo

variable {T : Type} [DecidableEq T] [Inhabited T]

/-! ## Unregistered keys, and `Find` on arbitrary allocated states -/

lemma not_mem_regKeys_iff (s : Unigo T) (x : T) : x ∉ regKeys s ↔ par s x = none := by
  rw [mem_regKeys_iff]
  cases h : par s x with
  | none => simp
  | some y => simp

/-- On a registered item `Find` never reports an error and never panics: it returns a
result without error, or its loop outlasts the fuel. -/
lemma Find_key_no_error {s : Unigo T} (ha : Allocated s) {item p0 : T}
    (h : par s item = some p0) (fuel : Nat) :
    (∃ r s', Find fuel s item = Outcome.ok ((r, none), s')) ∨
      Find fuel s item = Outcome.fuelOut := by
  obtain ⟨es, zs, hid, hsz⟩ := ensureInit_alloc s
  have hi : GoMap.index? (ensureInit s).id item = some p0 := by
    have := congrFun (par_ensureInit ha) item
    simp only [par] at this h
    rw [this, h]
  cases hw : findWalk (ensureInit s).id fuel p0 [] with
  | none =>
    right
    simp only [Find, hi, hw]
  | some rb =>
    obtain ⟨r, buf⟩ := rb
    left
    obtain ⟨es', hw1, _, _⟩ := writeBack_alloc es buf r
    refine ⟨r, { ensureInit s with id := some es' }, ?_⟩
    simp only [Find, hi, hw]
    rw [hid, hw1]

end Unigo

namespace Unigo

variable {T : Type} [DecidableEq T] [Inhabited T]

/-! ## Allocation of the result states, and absence of panics -/

lemma mapIntialized_of_alloc {t : Unigo T} (h : ∃ es zs, t.id = some es ∧ t.sz = some zs) :
    mapIntialized t = true := by
  obtain ⟨es, zs, h1, h2⟩ := h
  simp [mapIntialized, h1, h2]

lemma guardError_none (t : Unigo T) : guardError t = none := by
  rcases t with ⟨_ | es, _ | zs⟩ <;> rfl

lemma UnionResult.result_alloc {s s' : Unigo T} {item item2 : T} {res : T × Option (Error T)}
    (h : UnionResult s item item2 res s') : ∃ es zs, s'.id = some es ∧ s'.sz = some zs := by
  cases h with
  | notFound1 _ => exact ensureInit_alloc s
  | notFound2 _ _ hc => exact hc.alloc
  | same _ _ hc => exact hc.alloc
  | mergedLt _ _ _ _ _ hl => exact hl.alloc
  | mergedGe _ _ _ _ _ hl => exact hl.alloc

lemma MakeSet_result_alloc {s s' : Unigo T} {item : T} {e : Option (Error T)}
    (ha : Allocated s) (h : MakeSet s item = Outcome.ok (e, s')) :
    ∃ es zs, s'.id = some es ∧ s'.sz = some zs := by
  cases hp : par s item with
  | none =>
    obtain ⟨s1, h1, he⟩ := MakeSet_fresh ha hp
    rw [h1] at h
    cases h
    exact he.alloc
  | some w =>
    rw [MakeSet_exists ha hp] at h
    cases h
    exact ensureInit_alloc s

lemma Find_no_panic {s : Unigo T} (ha : Allocated s) (fuel : Nat) (item : T) :
    Find fuel s item ≠ Outcome.panic := by
  intro hpanic
  cases hp : par s item with
  | none =>
    rw [Find_notFound ha hp] at hpanic
    cases hpanic
  | some p0 =>
    rcases Find_key_no_error ha hp fuel with ⟨r, s', h⟩ | h
    · rw [h] at hpanic; cases hpanic
    · rw [h] at hpanic; cases hpanic

lemma Union_no_panic {s : Unigo T} (ha : Allocated s) (hf : Forest s) (fuel : Nat)
    (item item2 : T) : Union fuel s item item2 ≠ Outcome.panic := by
  intro hpanic
  simp only [Union, Find_ensureInit] at hpanic
  rcases hF1 : Find fuel s item with ⟨⟨r1, e1⟩, s1⟩ | _ | _
  · rw [hF1] at hpanic
    cases e1 with
    | some e => cases hpanic
    | none =>
      simp only at hpanic
      obtain ⟨hc1, _⟩ := Find_cases ha hf hF1
      rcases hF2 : Find fuel s1 item2 with ⟨⟨r2, e2⟩, s2⟩ | _ | _
      · rw [hF2] at hpanic
        cases e2 with
        | some e => cases hpanic
        | none =>
          simp only at hpanic
          by_cases hr : r1 = r2
          · rw [if_pos hr] at hpanic; cases hpanic
          · rw [if_neg hr] at hpanic
            obtain ⟨n1, hp1, _, hc2, hcase⟩ := Find_twice_cases ha hf hF1 hF2
            rcases hcase with ⟨_, hres⟩ | ⟨n2, r2', hp2, hres⟩
            · cases hres
            · cases hres
              obtain ⟨es, zs, hid, hsz⟩ := hc2.alloc
              obtain ⟨s3, hl, _⟩ := link_spec hid hsz
                ⟨r1, (hc2.parents.root_iff _).2 hp1.isRoot⟩
                ⟨r2, (hc2.parents.root_iff _).2 hp2.isRoot⟩
              rw [hl] at hpanic
              cases hpanic
      · exact Find_no_panic hc1.allocated fuel item2 hF2
      · rw [hF2] at hpanic; cases hpanic
  · exact Find_no_panic ha fuel item hF1
  · rw [hF1] at hpanic; cases hpanic

lemma Connected_no_panic {s : Unigo T} (ha : Allocated s) (hf : Forest s) (fuel : Nat)
    (item item2 : T) : Connected fuel s item item2 ≠ Outcome.panic := by
  intro hpanic
  simp only [Connected, Find_ensureInit] at hpanic
  rcases hF1 : Find fuel s item with ⟨⟨r1, e1⟩, s1⟩ | _ | _
  · rw [hF1] at hpanic
    cases e1 with
    | some e => cases hpanic
    | none =>
      simp only at hpanic
      obtain ⟨hc1, _⟩ := Find_cases ha hf hF1
      rcases hF2 : Find fuel s1 item2 with ⟨⟨r2, e2⟩, s2⟩ | _ | _
      · rw [hF2] at hpanic
        cases e2 with
        | some e => cases hpanic
        | none => cases hpanic
      · exact Find_no_panic hc1.allocated fuel item2 hF2
      · rw [hF2] at hpanic; cases hpanic
  · exact Find_no_panic ha fuel item hF1
  · rw [hF1] at hpanic; cases hpanic

lemma Reachable.empty_or_init {s : Unigo T} (hr : Reachable s) :
    s = Unigo.empty ∨ mapIntialized s = true := by
  have hat := hr.inv.alloc
  rcases s with ⟨_ | es, _ | zs⟩
  · exact Or.inl rfl
  · simp [Allocated] at hat
  · simp [Allocated] at hat
  · exact Or.inr rfl

end Unigo

namespace Unigo

variable {T : Type} [DecidableEq T] [Inhabited T]

/-! ## Trails from an item and from its parent -/

lemma trail_of_root {p : T → Option T} {x r : T} {l : List T} (h : Trail p x l r)
    (hx : p x = some x) : l = [] ∧ r = x := by
  cases h with
  | root _ => exact ⟨rfl, rfl⟩
  | step hxy hne _ =>
    rw [hx] at hxy
    exact absurd (Option.some.inj hxy).symm hne

lemma trail_mem_not_root {p : T → Option T} {x r c : T} {l : List T} (h : Trail p x l r)
    (hc : c ∈ l) : p c ≠ some c := by
  intro hroot
  obtain ⟨k, _, hp⟩ := h.mem_path hc
  exact absurd (ParentPath.of_root hroot hp).1 (by omega)

/-- The trail from an item extends the trail from its parent by the item itself, unless
the item is its own parent. -/
lemma trail_from_item {p : T → Option T} {item p0 r : T} {l0 : List T}
    (hp0 : p item = some p0) (ht : Trail p p0 l0 r) :
    ∃ l, Trail p item l r ∧ (∀ y, y ∈ l0 → y ∈ l ∧ y ≠ item) ∧
      (p item = some item → l0 = []) := by
  by_cases he : p0 = item
  · subst he
    obtain ⟨h1, h2⟩ := trail_of_root ht hp0
    subst h1
    exact ⟨[], ht, fun y hy => absurd hy (List.not_mem_nil _), fun _ => rfl⟩
  · have hstep : Trail p item (item :: l0) r := Trail.step hp0 he ht
    refine ⟨item :: l0, hstep, fun y hy => ⟨List.mem_cons_of_mem _ hy, ?_⟩, fun hroot => ?_⟩
    · intro e
      subst e
      exact (List.nodup_cons.1 hstep.nodup).1 hy
    · rw [hroot] at hp0
      exact absurd (Option.some.inj hp0).symm he

/-! ## The rank invariant -/

lemma rank_path_le {p : T → Option T} {h : T → Nat}
    (hlt : ∀ x y, p x = some y → y ≠ x → h x < h y) {n : Nat} {x r : T}
    (hp : ParentPath p n x r) : h x + n ≤ h r := by
  induction hp with
  | root _ => exact le_refl _
  | step hxy hne _ ih =>
    have := hlt _ _ hxy hne
    omega

lemma Ranked.of_empty : Ranked (empty : Unigo T) := by
  refine ⟨fun _ => 0, ?_, ?_⟩
  · intro x y h
    simp [par, Unigo.empty, GoMap.index?] at h
  · intro r h
    simp [par, Unigo.empty, GoMap.index?] at h

lemma Ranked.ranked_of_compresses {s s' : Unigo T} (hR : Ranked s) (hc : Compresses s s') :
    Ranked s' := by
  obtain ⟨h, hlt, hsz⟩ := hR
  refine ⟨h, ?_, ?_⟩
  · intro x y hxy hne
    rcases hc.parents x with h1 | ⟨r, k, h1, hp⟩
    · rw [hxy] at h1
      exact hlt x y h1.symm hne
    · rw [hxy] at h1
      cases Option.some.inj h1
      have := rank_path_le hlt hp
      omega
  · intro r hr
    rw [size_congr hc.sizes]
    exact hsz r ((hc.parents.root_iff r).1 hr)

lemma Ranked.ranked_of_extended {s s' : Unigo T} {a : T} (hR : Ranked s) (hf : Forest s)
    (ha : par s a = none) (he : Extended s s' a) : Ranked s' := by
  obtain ⟨h, hlt, hsz⟩ := hR
  refine ⟨fun y => if y = a then 0 else h y, ?_, ?_⟩
  · intro x y hxy hne
    have hxa : x ≠ a := by
      intro e
      subst e
      rw [he.parents, if_pos rfl] at hxy
      exact hne (Option.some.inj hxy).symm
    rw [he.parents, if_neg hxa] at hxy
    have hya : y ≠ a := by
      intro e
      subst e
      obtain ⟨z, hz⟩ := hf.closed _ _ hxy
      rw [ha] at hz
      cases hz
    simp only [if_neg hxa, if_neg hya]
    exact hlt x y hxy hne
  · intro r hr
    by_cases hra : r = a
    · subst hra
      simp only [if_pos rfl, pow_zero]
      rw [size_eq_szEntry, he.sizes, if_pos rfl]
      exact le_refl _
    · simp only [if_neg hra]
      rw [he.parents, if_neg hra] at hr
      rw [size_eq_szEntry, he.sizes, if_neg hra, ← size_eq_szEntry]
      exact hsz r hr

lemma Ranked.ranked_of_linked {s s' : Unigo T} {a b : T} (hR : Ranked s)
    (ha : par s a = some a) (hb : par s b = some b) (hab : a ≠ b)
    (hle : size s a ≤ size s b) (hl : Linked s s' a b) : Ranked s' := by
  obtain ⟨h, hlt, hsz⟩ := hR
  have hsa := hsz a ha
  have hsb := hsz b hb
  have hpos : (0 : Int) < 2 ^ h a := by positivity
  obtain ⟨m, hm1, hm2, hm3⟩ :
      ∃ m, h a < m ∧ h b ≤ m ∧ (2 : Int) ^ m ≤ size s b + size s a := by
    by_cases hcmp : h b ≤ h a
    · refine ⟨h a + 1, Nat.lt_succ_self _, by omega, ?_⟩
      rw [pow_succ]
      linarith
    · exact ⟨h b, by omega, le_refl _, by linarith⟩
  refine ⟨fun y => if y = b then m else h y, ?_, ?_⟩
  · intro x y hxy hne
    by_cases hxa : x = a
    · subst hxa
      rw [hl.parents, if_pos rfl] at hxy
      cases Option.some.inj hxy
      simp only [if_neg hab, if_pos rfl]
      exact hm1
    · rw [hl.parents, if_neg hxa] at hxy
      have hxb : x ≠ b := by
        intro e
        subst e
        rw [hb] at hxy
        exact hne (Option.some.inj hxy).symm
      have hxy' := hlt x y hxy hne
      simp only [if_neg hxb]
      by_cases hyb : y = b
      · subst hyb
        simp only [if_pos rfl]
        exact lt_of_lt_of_le hxy' hm2
      · simp only [if_neg hyb]
        exact hxy'
  · intro r hr
    have hra : r ≠ a := by
      intro e
      subst e
      rw [hl.parents, if_pos rfl] at hr
      exact hab (Option.some.inj hr).symm
    rw [hl.parents, if_neg hra] at hr
    by_cases hrb : r = b
    · subst hrb
      simp only [if_pos rfl]
      rw [size_eq_szEntry, hl.sizes, if_pos rfl]
      exact hm3
    · simp only [if_neg hrb]
      rw [size_eq_szEntry, hl.sizes, if_neg hrb, ← size_eq_szEntry]
      exact hsz r hr

lemma UnionResult.ranked_after {s s' : Unigo T} {item item2 : T} {res : T × Option (Error T)}
    (ha : Allocated s) (hR : Ranked s) (h : UnionResult s item item2 res s') : Ranked s' := by
  cases h with
  | notFound1 _ => exact hR.ranked_of_compresses (Compresses.ensure ha)
  | notFound2 _ _ hc => exact hR.ranked_of_compresses hc
  | same _ _ hc => exact hR.ranked_of_compresses hc
  | mergedLt hp1 hp2 hne hc hlt hl =>
    refine (hR.ranked_of_compresses hc).ranked_of_linked ((hc.parents.root_iff _).2 hp1.isRoot)
      ((hc.parents.root_iff _).2 hp2.isRoot) hne ?_ hl
    rw [size_congr hc.sizes, size_congr hc.sizes]
    exact le_of_lt hlt
  | mergedGe hp1 hp2 hne hc hge hl =>
    refine (hR.ranked_of_compresses hc).ranked_of_linked ((hc.parents.root_iff _).2 hp2.isRoot)
      ((hc.parents.root_iff _).2 hp1.isRoot) (Ne.symm hne) ?_ hl
    rw [size_congr hc.sizes, size_congr hc.sizes]
    exact not_lt.1 hge

lemma Reachable.ranked {s : Unigo T} (h : Reachable s) : Ranked s := by
  induction h with
  | empty => exact Ranked.of_empty
  | @makeSet s s' item e hr hop ih =>
    have hi := hr.inv
    cases hp : par s item with
    | none =>
      obtain ⟨s1, h1, he⟩ := MakeSet_fresh hi.alloc hp
      rw [h1] at hop
      cases hop
      exact ih.ranked_of_extended hi.forest hp he
    | some w =>
      rw [MakeSet_exists hi.alloc hp] at hop
      cases hop
      exact ih.ranked_of_compresses (Compresses.ensure hi.alloc)
  | find hr hop ih =>
    exact ih.ranked_of_compresses (Find_cases hr.inv.alloc hr.inv.forest hop).1
  | union hr hop ih =>
    exact (Union_cases hr.inv.alloc hr.inv.forest hop).ranked_after hr.inv.alloc ih
  | connected hr hop ih =>
    exact ih.ranked_of_compresses
      ((Connected_cases hr.inv.alloc hr.inv.forest hop).compresses hr.inv.alloc)

set_option maxRecDepth 100000 in
lemma quad_reachable : Reachable quad :=
  Reachable.of_calls Reachable.empty
    (show runCalls 4 [Call.makeSet 1, Call.makeSet 2, Call.makeSet 3, Call.makeSet 4,
        Call.union 1 2, Call.union 3 4] empty = Outcome.ok quad from rfl)

end Unigo
/-! # The claims -/

namespace Unigo

variable {T : Type} [DecidableEq T] [Inhabited T]

/-- C1 (evaluation of the code at the failing input): in the reachable state with the
sets `{1}` and `{2,3}`, `Union(1,2)` succeeds and returns `1`, although the merge
attached `1` under `2`: afterwards the parent of `1` is `2`, and `Find(1)` and
`Find(2)` both report `2`, not the returned element. -/
theorem C1_union_returns_absorbed_root :
    Reachable trio23 ∧ RootOf trio23 1 1 ∧ RootOf trio23 2 2 ∧
    Union 3 trio23 1 2 = Outcome.ok ((1, none), trio23m) ∧
    par trio23m 1 = some 2 ∧
    Find 3 trio23m 1 = Outcome.ok ((2, none), trio23m) ∧
    Find 3 trio23m 2 = Outcome.ok ((2, none), trio23m) :=
  ⟨trio23_reachable, ⟨0, ParentPath.root rfl⟩, ⟨0, ParentPath.root rfl⟩, rfl, rfl, rfl, rfl⟩

/-- C2 (counterexample): in the reachable state `tree8`, `Union(8, 99)` returns the
not-found error for the unregistered `99`, yet the parent entry of `7` has changed
from `5` to `1`: the successful `Find(8)` compressed the path before `Find(99)` failed. -/
theorem C2_counterexample :
    Reachable tree8 ∧ par tree8 8 = some 7 ∧ par tree8 99 = none ∧
    Union 8 tree8 8 99 = Outcome.ok ((0, some (Error.notFound 99)), tree8c) ∧
    par tree8 7 = some 5 ∧ par tree8c 7 = some 1 :=
  ⟨tree8_reachable, rfl, rfl, rfl, rfl, rfl⟩

/-- C2 (amended): in every reachable state, `Union(item, item2)` returns, and whenever it
returns an error the key set and every size entry are what they were before the call,
every parent entry is unchanged or has been retargeted to the root of its key, so
every element keeps its root; when `item` is not registered every parent entry is
unchanged. -/
theorem C2_failed_union_only_compresses {s : Unigo T} (hr : Reachable s) {fuel : Nat}
    (hfuel : card s ≤ fuel) (item item2 : T) :
    (∃ res s', Union fuel s item item2 = Outcome.ok (res, s')) ∧
    ∀ (r : T) (e : Error T) (s' : Unigo T),
      Union fuel s item item2 = Outcome.ok ((r, some e), s') →
        regKeys s' = regKeys s ∧
        (∀ x, szEntry s' x = szEntry s x) ∧
        (∀ y, par s' y = par s y ∨ ∃ ry, par s' y = some ry ∧ RootOf s y ry) ∧
        (∀ x rx, RootOf s' x rx ↔ RootOf s x rx) ∧
        (item ∉ regKeys s → ∀ y, par s' y = par s y) := by
  have hi := hr.inv
  refine ⟨Union_total hi.alloc hi.forest hfuel item item2, ?_⟩
  intro r e s' hop
  have hres := Union_cases hi.alloc hi.forest hop
  have key : ∀ {s1 : Unigo T}, Compresses s s1 →
      regKeys s1 = regKeys s ∧ (∀ x, szEntry s1 x = szEntry s x) ∧
      (∀ y, par s1 y = par s y ∨ ∃ ry, par s1 y = some ry ∧ RootOf s y ry) ∧
      (∀ x rx, RootOf s1 x rx ↔ RootOf s x rx) := by
    intro s1 hc
    refine ⟨hc.keys, hc.sizes, fun y => ?_, hc.rootOf_iff⟩
    rcases hc.parents y with h1 | ⟨ry, k, h1, h2⟩
    · exact Or.inl h1
    · exact Or.inr ⟨ry, h1, ⟨k + 1, h2⟩⟩
  generalize hg : ((r, some e) : T × Option (Error T)) = res at hres
  cases hres with
  | notFound1 hnone =>
    obtain ⟨k1, k2, k3, k4⟩ := key (Compresses.ensure hi.alloc)
    exact ⟨k1, k2, k3, k4, fun _ y => by rw [par_ensureInit hi.alloc]⟩
  | @notFound2 n1 r1 s1 hp1 _ hc =>
    obtain ⟨k1, k2, k3, k4⟩ := key hc
    refine ⟨k1, k2, k3, k4, fun hnot => ?_⟩
    exact absurd ((mem_regKeys_iff s item).2 hp1.isKey) hnot
  | same _ _ _ => cases hg
  | mergedLt _ _ _ _ _ _ => cases hg
  | mergedGe _ _ _ _ _ _ => cases hg

/-- C2 (witness): the amended statement at the state `tree8` and the call `Union(8, 99)`. -/
theorem C2_failed_union_witness :
    Reachable tree8 ∧ card tree8 ≤ 8 ∧
    ((∃ res s', Union 8 tree8 8 99 = Outcome.ok (res, s')) ∧
    ∀ (r : Nat) (e : Error Nat) (s' : Unigo Nat),
      Union 8 tree8 8 99 = Outcome.ok ((r, some e), s') →
        regKeys s' = regKeys tree8 ∧
        (∀ x, szEntry s' x = szEntry tree8 x) ∧
        (∀ y, par s' y = par tree8 y ∨ ∃ ry, par s' y = some ry ∧ RootOf tree8 y ry) ∧
        (∀ x rx, RootOf s' x rx ↔ RootOf tree8 x rx) ∧
        (8 ∉ regKeys tree8 → ∀ y, par s' y = par tree8 y)) :=
  ⟨tree8_reachable, by decide, C2_failed_union_only_compresses tree8_reachable (by decide) 8 99⟩

/-- C3: size conservation.  In every reachable state, for every root `r` (an element that
is its own parent) the set of registered elements whose parent chain ends at `r` is
finite and `sz[r]` equals its number of elements. -/
theorem C3_size_conservation {s : Unigo T} (hr : Reachable s) (r : T)
    (hroot : par s r = some r) :
    {x | x ∈ regKeys s ∧ RootOf s x r}.Finite ∧
    size s r = ({x | x ∈ regKeys s ∧ RootOf s x r}.ncard : Int) := by
  obtain ⟨l, hnd, hmem, hlen⟩ := hr.inv.sizes r hroot
  have hset : {x | x ∈ regKeys s ∧ RootOf s x r} = ↑l.toFinset := by
    ext x
    simp only [Set.mem_setOf_eq, List.coe_toFinset, hmem]
    exact ⟨fun h => h.2, fun h => ⟨RootOf.mem_regKeys h, h⟩⟩
  rw [hset]
  refine ⟨Finset.finite_toSet _, ?_⟩
  rw [Set.ncard_coe_Finset, List.toFinset_card_of_nodup hnd, hlen]

/-- C3 (witness): the root `1` of the eight-element tree `tree8`. -/
theorem C3_size_conservation_witness :
    Reachable tree8 ∧ par tree8 1 = some 1 ∧
    ({x | x ∈ regKeys tree8 ∧ RootOf tree8 x 1}.Finite ∧
     size tree8 1 = ({x | x ∈ regKeys tree8 ∧ RootOf tree8 x 1}.ncard : Int)) :=
  ⟨tree8_reachable, rfl, C3_size_conservation tree8_reachable 1 rfl⟩

/-- C4: forest invariant.  Every reachable state satisfies `Forest` (the parent of a key is
a key, and every key reaches a self-parented root after finitely many parent steps), and
from every state satisfying `Forest` each of `MakeSet`, `Find`, `Union` and `Connected`
returns, successfully or with an error, in a state that satisfies `Forest` again. -/
theorem C4_forest_invariant {s : Unigo T} (h : Reachable s ∨ Forest s) {fuel : Nat}
    (hfuel : card s ≤ fuel) (item item2 : T) :
    Forest s ∧
    (∃ e s', MakeSet s item = Outcome.ok (e, s') ∧ Forest s') ∧
    (∃ res s', Find fuel s item = Outcome.ok (res, s') ∧ Forest s') ∧
    (∃ res s', Union fuel s item item2 = Outcome.ok (res, s') ∧ Forest s') ∧
    (∃ res s', Connected fuel s item item2 = Outcome.ok (res, s') ∧ Forest s') := by
  have hf : Forest s := by
    rcases h with h | h
    · exact h.inv.forest
    · exact h
  have ha0 := allocated_ensureInit s
  have hf0 := hf.forest_ensure
  have hfuel0 : card (ensureInit s) ≤ fuel := le_trans (card_ensureInit_le s) hfuel
  refine ⟨hf, ?_, ?_, ?_, ?_⟩
  · obtain ⟨e, s', hop⟩ := MakeSet_total (ensureInit s) item
    refine ⟨e, s', ?_, MakeSet_forest ha0 hf0 hop⟩
    rw [← MakeSet_ensureInit]; exact hop
  · obtain ⟨res, s', hop⟩ := Find_total ha0 hf0 hfuel0 item
    refine ⟨res, s', ?_, hf0.forest_of_compresses (Find_cases ha0 hf0 hop).1⟩
    rw [← Find_ensureInit]; exact hop
  · obtain ⟨res, s', hop⟩ := Union_total ha0 hf0 hfuel0 item item2
    refine ⟨res, s', ?_, (Union_cases ha0 hf0 hop).forest ha0 hf0⟩
    rw [← Union_ensureInit]; exact hop
  · obtain ⟨res, s', hop⟩ := Connected_total ha0 hf0 hfuel0 item item2
    refine ⟨res, s', ?_,
      hf0.forest_of_compresses ((Connected_cases ha0 hf0 hop).compresses ha0)⟩
    rw [← Connected_ensureInit]; exact hop

/-- C4 (witness): the invariant and its preservation at the state `tree8`. -/
theorem C4_forest_invariant_witness :
    (Reachable tree8 ∨ Forest tree8) ∧ card tree8 ≤ 8 ∧
    (Forest tree8 ∧
    (∃ e s', MakeSet tree8 8 = Outcome.ok (e, s') ∧ Forest s') ∧
    (∃ res s', Find 8 tree8 8 = Outcome.ok (res, s') ∧ Forest s') ∧
    (∃ res s', Union 8 tree8 8 99 = Outcome.ok (res, s') ∧ Forest s') ∧
    (∃ res s', Connected 8 tree8 8 99 = Outcome.ok (res, s') ∧ Forest s')) :=
  ⟨Or.inl tree8_reachable, by decide,
    C4_forest_invariant (Or.inl tree8_reachable) (show card tree8 ≤ 8 by decide) 8 99⟩

end Unigo

namespace Unigo

variable {T : Type} [DecidableEq T] [Inhabited T]

/-- C5 (evaluation of the code at the failing input): in the reachable state `tree4` with
the chain `4 → 3 → 1`, `Find(4)` returns the root `1` and leaves the structure as it was:
the parent of `4` is still `3`, so the path from `4` to its root still has length 2.
The walk starts at the parent of the item, so the item itself is never recorded. -/
theorem C5_find_leaves_item_uncompressed :
    Reachable tree4 ∧ 4 ∈ regKeys tree4 ∧
    Find 4 tree4 4 = Outcome.ok ((1, none), tree4) ∧
    par tree4 4 = some 3 ∧ ParentPath (par tree4) 2 4 1 :=
  ⟨tree4_reachable, by decide, rfl, rfl,
    ParentPath.step rfl (by decide) (ParentPath.step rfl (by decide) (ParentPath.root rfl))⟩

/-- C6 (counterexample): in the reachable state `tree8`, `Union(8, 8)` returns the root `1`
with no error, yet the parent entry of `7` has changed from `5` to `1`. -/
theorem C6_counterexample :
    Reachable tree8 ∧ 8 ∈ regKeys tree8 ∧
    Union 8 tree8 8 8 = Outcome.ok ((1, none), tree8c) ∧
    par tree8 7 = some 5 ∧ par tree8c 7 = some 1 :=
  ⟨tree8_reachable, by decide, rfl, rfl, rfl⟩

/-- C6 (amended): in every reachable state and for every registered `x`, `Union(x, x)`
returns the root of `x` with no error, leaves the key set and every size entry
unchanged, and changes parent entries only by path compression: every parent entry is
unchanged or retargeted to the root of its key, so every element keeps its root. -/
theorem C6_self_union_only_compresses {s : Unigo T} (hr : Reachable s) {fuel : Nat}
    (hfuel : card s ≤ fuel) {x : T} (hx : x ∈ regKeys s) :
    ∃ r s', Union fuel s x x = Outcome.ok ((r, none), s') ∧ RootOf s x r ∧
      regKeys s' = regKeys s ∧
      (∀ y, szEntry s' y = szEntry s y) ∧
      (∀ y, par s' y = par s y ∨ ∃ ry, par s' y = some ry ∧ RootOf s y ry) ∧
      (∀ y ry, RootOf s' y ry ↔ RootOf s y ry) := by
  have hi := hr.inv
  obtain ⟨r, hroot⟩ := hi.forest.rootOf_exists hx
  obtain ⟨res, s', hop⟩ := Union_total hi.alloc hi.forest hfuel x x
  have hres := Union_cases hi.alloc hi.forest hop
  have hkey : ∃ w, par s x = some w := (mem_regKeys_iff s x).1 hx
  cases hres with
  | notFound1 hnone =>
    obtain ⟨w, hw⟩ := hkey
    rw [hnone] at hw; cases hw
  | notFound2 _ hnone _ =>
    obtain ⟨w, hw⟩ := hkey
    rw [hnone] at hw; cases hw
  | @same n1 n2 r' s2 hp1 _ hc =>
    have e : r' = r := RootOf.root_unique ⟨n1, hp1⟩ hroot
    subst e
    refine ⟨r', s', hop, hroot, hc.keys, hc.sizes, fun y => ?_, hc.rootOf_iff⟩
    rcases hc.parents y with h1 | ⟨ry, k, h1, h2⟩
    · exact Or.inl h1
    · exact Or.inr ⟨ry, h1, ⟨k + 1, h2⟩⟩
  | mergedLt hp1 hp2 hne _ _ _ => exact absurd (ParentPath.root_eq hp1 hp2) hne
  | mergedGe hp1 hp2 hne _ _ _ => exact absurd (ParentPath.root_eq hp1 hp2) hne

/-- C6 (witness): the amended statement at the state `tree8` and the call `Union(8, 8)`. -/
theorem C6_self_union_witness :
    Reachable tree8 ∧ card tree8 ≤ 8 ∧ 8 ∈ regKeys tree8 ∧
    ∃ r s', Union 8 tree8 8 8 = Outcome.ok ((r, none), s') ∧ RootOf tree8 8 r ∧
      regKeys s' = regKeys tree8 ∧
      (∀ y, szEntry s' y = szEntry tree8 y) ∧
      (∀ y, par s' y = par tree8 y ∨ ∃ ry, par s' y = some ry ∧ RootOf tree8 y ry) ∧
      (∀ y ry, RootOf s' y ry ↔ RootOf tree8 y ry) :=
  ⟨tree8_reachable, by decide, by decide,
    C6_self_union_only_compresses tree8_reachable (show card tree8 ≤ 8 by decide)
      (show 8 ∈ regKeys tree8 by decide)⟩

/-- C7: union by size with the fixed tie-break.  In every reachable state, for registered
`item`, `item2` with distinct roots `root1`, `root2`, `Union(item, item2)` succeeds (returning `root1`); if
`sz[root1] < sz[root2]` then afterwards `parent[root1] = root2` and `sz[root2]` has grown
by the old `sz[root1]`; otherwise (equal sizes included) `parent[root2] = root1`,
`sz[root1]` has grown by the old `sz[root2]` and `root1` is still a root; in particular
when both sizes are 1, `root1` stays a root and gets size 2. -/
theorem C7_union_by_size {s : Unigo T} (hr : Reachable s) {fuel : Nat}
    (hfuel : card s ≤ fuel) {item item2 root1 root2 : T}
    (h1 : RootOf s item root1) (h2 : RootOf s item2 root2) (hne : root1 ≠ root2) :
    ∃ s', Union fuel s item item2 = Outcome.ok ((root1, none), s') ∧
      (size s root1 < size s root2 →
        par s' root1 = some root2 ∧ size s' root2 = size s root2 + size s root1) ∧
      (¬ size s root1 < size s root2 →
        par s' root2 = some root1 ∧ size s' root1 = size s root1 + size s root2 ∧
        par s' root1 = some root1) ∧
      (size s root1 = 1 → size s root2 = 1 →
        par s' root2 = some root1 ∧ par s' root1 = some root1 ∧ size s' root1 = 2) := by
  have hi := hr.inv
  obtain ⟨s2, s', hop, hc, hcase⟩ := Union_merge hi.alloc hi.forest hfuel h1 h2 hne
  have hsz : ∀ x, size s2 x = size s x := size_congr hc.sizes
  have hge : ¬ size s root1 < size s root2 →
      par s' root2 = some root1 ∧ size s' root1 = size s root1 + size s root2 ∧
      par s' root1 = some root1 := by
    intro hnlt
    rcases hcase with ⟨hlt, _⟩ | ⟨_, hl⟩
    · exact absurd hlt hnlt
    · refine ⟨by rw [hl.parents, if_pos rfl], ?_, ?_⟩
      · rw [size_eq_szEntry, hl.sizes, if_pos rfl, hsz, hsz]; rfl
      · rw [hl.parents, if_neg hne]
        exact (hc.parents.root_iff _).2 h1.par_root
  refine ⟨s', hop, ?_, hge, ?_⟩
  · intro hlt
    rcases hcase with ⟨_, hl⟩ | ⟨hnlt, _⟩
    · refine ⟨by rw [hl.parents, if_pos rfl], ?_⟩
      rw [size_eq_szEntry, hl.sizes, if_pos rfl, hsz, hsz]; rfl
    · exact absurd hlt hnlt
  · intro e1 e2
    obtain ⟨k1, k2, k3⟩ := hge (by rw [e1, e2]; decide)
    refine ⟨k1, k3, ?_⟩
    rw [k2, e1, e2]; rfl

/-- C7 (witness): uniting the two singletons `1` and `2` leaves `1` as the root, with
size 2. -/
theorem C7_union_by_size_witness :
    Reachable pair12 ∧ card pair12 ≤ 2 ∧ RootOf pair12 1 1 ∧ RootOf pair12 2 2 ∧
    Union 2 pair12 1 2 = Outcome.ok ((1, none), pair12m) ∧
    par pair12m 1 = some 1 ∧ size pair12m 1 = 2 ∧
    ∃ s', Union 2 pair12 1 2 = Outcome.ok ((1, none), s') ∧
      (size pair12 1 < size pair12 2 →
        par s' 1 = some 2 ∧ size s' 2 = size pair12 2 + size pair12 1) ∧
      (¬ size pair12 1 < size pair12 2 →
        par s' 2 = some 1 ∧ size s' 1 = size pair12 1 + size pair12 2 ∧
        par s' 1 = some 1) ∧
      (size pair12 1 = 1 → size pair12 2 = 1 →
        par s' 2 = some 1 ∧ par s' 1 = some 1 ∧ size s' 1 = 2) :=
  ⟨pair12_reachable, by decide, ⟨0, ParentPath.root rfl⟩, ⟨0, ParentPath.root rfl⟩, rfl, rfl,
    rfl,
    C7_union_by_size pair12_reachable (show card pair12 ≤ 2 by decide)
      (show RootOf pair12 1 1 from ⟨0, ParentPath.root rfl⟩)
      (show RootOf pair12 2 2 from ⟨0, ParentPath.root rfl⟩) (by decide)⟩

end Unigo

namespace Unigo

variable {T : Type} [DecidableEq T] [Inhabited T]

/-- C8: `Union` merges exactly two sets.  In every reachable state, after a successful
`Union(a, b)` the key set is unchanged and, for all registered `x`, `y`, `Connected(x, y)`
returns a boolean with no error, and it returns `true` after the call if and only if
before the call `Connected(x, y)` returned `true`, or `x` was connected to `a` and `y` to
`b`, or `x` to `b` and `y` to `a`. -/
theorem C8_union_merges_exactly_two_sets {s s' : Unigo T} (hr : Reachable s) {fuel : Nat}
    (hfuel : card s ≤ fuel) {a b r : T}
    (hu : Union fuel s a b = Outcome.ok ((r, none), s')) {x y : T}
    (hx : x ∈ regKeys s) (hy : y ∈ regKeys s) :
    regKeys s' = regKeys s ∧
    (∃ bl s'', Connected fuel s' x y = Outcome.ok ((bl, none), s'')) ∧
    (ConnectedTrue fuel s' x y ↔
      ConnectedTrue fuel s x y ∨
      (ConnectedTrue fuel s x a ∧ ConnectedTrue fuel s y b) ∨
      (ConnectedTrue fuel s x b ∧ ConnectedTrue fuel s y a)) := by
  have hi := hr.inv
  have hres := Union_cases hi.alloc hi.forest hu
  have hi' := hres.preserves_inv hi
  have hkeys := hres.keys_eq hi.alloc
  have hfuel' : card s' ≤ fuel := by simpa [card, hkeys] using hfuel
  refine ⟨hkeys, ?_, ?_⟩
  · obtain ⟨rx, hrx⟩ := hi'.forest.rootOf_exists (by rw [hkeys]; exact hx)
    obtain ⟨ry, hry⟩ := hi'.forest.rootOf_exists (by rw [hkeys]; exact hy)
    obtain ⟨s'', hop, _⟩ := Connected_found hi'.alloc hi'.forest hfuel' hrx hry
    exact ⟨_, _, hop⟩
  · rw [connectedTrue_iff hi'.alloc hi'.forest hfuel', connectedTrue_iff hi.alloc hi.forest hfuel,
      connectedTrue_iff hi.alloc hi.forest hfuel, connectedTrue_iff hi.alloc hi.forest hfuel,
      connectedTrue_iff hi.alloc hi.forest hfuel, connectedTrue_iff hi.alloc hi.forest hfuel]
    exact hres.sameRoot_after x y

/-- C8 (witness): the scenario `MakeSet(1)`, `MakeSet(2)`, `MakeSet(3)`; `Union(1,2)`;
`Connected(1,3) = false`; `Union(2,3)`; `Connected(1,3) = true` and
`Find(1) = Find(2) = Find(3)`; with the theorem applied to the second union. -/
theorem C8_union_merges_witness :
    Reachable trio12 ∧ card trio12 ≤ 3 ∧
    Union 3 trio12 2 3 = Outcome.ok ((1, none), trio123) ∧
    1 ∈ regKeys trio12 ∧ 3 ∈ regKeys trio12 ∧
    (regKeys trio123 = regKeys trio12 ∧
     (∃ bl s'', Connected 3 trio123 1 3 = Outcome.ok ((bl, none), s'')) ∧
     (ConnectedTrue 3 trio123 1 3 ↔
       ConnectedTrue 3 trio12 1 3 ∨
       (ConnectedTrue 3 trio12 1 2 ∧ ConnectedTrue 3 trio12 3 3) ∨
       (ConnectedTrue 3 trio12 1 3 ∧ ConnectedTrue 3 trio12 3 2))) ∧
    runCalls 0 [Call.makeSet 1, Call.makeSet 2, Call.makeSet 3] empty = Outcome.ok trio ∧
    Union 3 trio 1 2 = Outcome.ok ((1, none), trio12) ∧
    Connected 3 trio12 1 3 = Outcome.ok ((false, none), trio12) ∧
    Connected 3 trio123 1 3 = Outcome.ok ((true, none), trio123) ∧
    Find 3 trio123 1 = Outcome.ok ((1, none), trio123) ∧
    Find 3 trio123 2 = Outcome.ok ((1, none), trio123) ∧
    Find 3 trio123 3 = Outcome.ok ((1, none), trio123) :=
  ⟨trio12_reachable, by decide, rfl, by decide, by decide,
    C8_union_merges_exactly_two_sets trio12_reachable (show card trio12 ≤ 3 by decide)
      (show Union 3 trio12 2 3 = Outcome.ok ((1, none), trio123) from rfl)
      (show 1 ∈ regKeys trio12 by decide) (show 3 ∈ regKeys trio12 by decide),
    rfl, rfl, rfl, rfl, rfl, rfl, rfl⟩

/-- C9: transitivity after union.  In every reachable state, if `Union(a, b)` succeeds and
then `Union(b, c)` succeeds, a following `Connected(a, c)` returns `true` with no error. -/
theorem C9_transitivity_after_union {s s1 s2 : Unigo T} (hr : Reachable s) {fuel : Nat}
    (hfuel : card s ≤ fuel) {a b c r1 r2 : T}
    (hu1 : Union fuel s a b = Outcome.ok ((r1, none), s1))
    (hu2 : Union fuel s1 b c = Outcome.ok ((r2, none), s2)) :
    ∃ s3, Connected fuel s2 a c = Outcome.ok ((true, none), s3) := by
  have hi := hr.inv
  have hres1 := Union_cases hi.alloc hi.forest hu1
  have hi1 := hres1.preserves_inv hi
  have hres2 := Union_cases hi1.alloc hi1.forest hu2
  have hi2 := hres2.preserves_inv hi1
  have hk1 := hres1.keys_eq hi.alloc
  have hk2 := hres2.keys_eq hi1.alloc
  have hfuel2 : card s2 ≤ fuel := by simpa [card, hk1, hk2] using hfuel
  obtain ⟨ra, rb, hra, hrb⟩ := hres1.success_roots
  have hab1 : SameRoot s1 a b :=
    (hres1.sameRoot_after a b).2 (Or.inr (Or.inl ⟨⟨ra, hra, hra⟩, ⟨rb, hrb, hrb⟩⟩))
  obtain ⟨rb', rc, hrb', hrc⟩ := hres2.success_roots
  have hbc2 : SameRoot s2 b c :=
    (hres2.sameRoot_after b c).2 (Or.inr (Or.inl ⟨⟨rb', hrb', hrb'⟩, ⟨rc, hrc, hrc⟩⟩))
  have hab2 : SameRoot s2 a b := (hres2.sameRoot_after a b).2 (Or.inl hab1)
  have hac2 : SameRoot s2 a c := by
    obtain ⟨r, ha, hb⟩ := hab2
    obtain ⟨r', hb', hc⟩ := hbc2
    rw [hb.root_unique hb'] at ha
    exact ⟨r', ha, hc⟩
  exact (connectedTrue_iff hi2.alloc hi2.forest hfuel2 a c).2 hac2

/-- C9 (witness): `Union(1,2)` then `Union(2,3)` on three singletons, then
`Connected(1,3)`. -/
theorem C9_transitivity_witness :
    Reachable trio ∧ card trio ≤ 3 ∧
    Union 3 trio 1 2 = Outcome.ok ((1, none), trio12) ∧
    Union 3 trio12 2 3 = Outcome.ok ((1, none), trio123) ∧
    ∃ s3, Connected 3 trio123 1 3 = Outcome.ok ((true, none), s3) :=
  ⟨trio_reachable, by decide, rfl, rfl,
    C9_transitivity_after_union trio_reachable (show card trio ≤ 3 by decide)
      (show Union 3 trio 1 2 = Outcome.ok ((1, none), trio12) from rfl)
      (show Union 3 trio12 2 3 = Outcome.ok ((1, none), trio123) from rfl)⟩

/-- C10: symmetry of `Connected`.  In every reachable state and for all registered `x`, `y`,
`Connected(x, y)` and `Connected(y, x)`, each evaluated from that same state, return the
same boolean with no error. -/
theorem C10_connected_symmetric {s : Unigo T} (hr : Reachable s) {fuel : Nat}
    (hfuel : card s ≤ fuel) {x y : T} (hx : x ∈ regKeys s) (hy : y ∈ regKeys s) :
    ∃ bl s1 s2, Connected fuel s x y = Outcome.ok ((bl, none), s1) ∧
      Connected fuel s y x = Outcome.ok ((bl, none), s2) := by
  have hi := hr.inv
  obtain ⟨rx, hrx⟩ := hi.forest.rootOf_exists hx
  obtain ⟨ry, hry⟩ := hi.forest.rootOf_exists hy
  obtain ⟨s1, h1, _⟩ := Connected_found hi.alloc hi.forest hfuel hrx hry
  obtain ⟨s2, h2, _⟩ := Connected_found hi.alloc hi.forest hfuel hry hrx
  refine ⟨decide (rx = ry), s1, s2, h1, ?_⟩
  have e : decide (ry = rx) = decide (rx = ry) := by
    by_cases h : rx = ry
    · subst h; rfl
    · rw [decide_eq_false h, decide_eq_false (Ne.symm h)]
  rw [← e]
  exact h2

/-- C10 (witness): `Connected(8, 4)` and `Connected(4, 8)` on the state `tree8`, and
`Connected(1, 3)` and `Connected(3, 1)` on the state `trio12`, where the answer is
`false`. -/
theorem C10_connected_symmetric_witness :
    Reachable tree8 ∧ card tree8 ≤ 8 ∧ 8 ∈ regKeys tree8 ∧ 4 ∈ regKeys tree8 ∧
    (∃ bl s1 s2, Connected 8 tree8 8 4 = Outcome.ok ((bl, none), s1) ∧
      Connected 8 tree8 4 8 = Outcome.ok ((bl, none), s2)) ∧
    Connected 3 trio12 1 3 = Outcome.ok ((false, none), trio12) ∧
    Connected 3 trio12 3 1 = Outcome.ok ((false, none), trio12) :=
  ⟨tree8_reachable, by decide, by decide, by decide,
    C10_connected_symmetric tree8_reachable (show card tree8 ≤ 8 by decide)
      (show 8 ∈ regKeys tree8 by decide) (show 4 ∈ regKeys tree8 by decide),
    rfl, rfl⟩

end Unigo

namespace Unigo

variable {T : Type} [DecidableEq T] [Inhabited T]

/-- C11: result of `Connected`.  In every reachable state `Connected(item, item2)` returns;
it returns an error exactly when `item` or `item2` is not a key of the parent map, and
then the boolean is `false`.  When `item` is not a key the error is the one for `item`
and the result is the same whatever the second argument is (it is not looked up).  When
both are keys there is no error and the boolean is `true` if and only if `item` and
`item2` have the same root in the state before the call. -/
theorem C11_connected_result {s : Unigo T} (hr : Reachable s) {fuel : Nat}
    (hfuel : card s ≤ fuel) (item item2 : T) :
    (∃ bl e s', Connected fuel s item item2 = Outcome.ok ((bl, e), s') ∧
      (e ≠ none ↔ item ∉ regKeys s ∨ item2 ∉ regKeys s) ∧ (e ≠ none → bl = false)) ∧
    (item ∉ regKeys s → ∀ other, Connected fuel s item other =
      Outcome.ok ((false, some (Error.notFound item)), ensureInit s)) ∧
    (item ∈ regKeys s → item2 ∉ regKeys s → ∃ s',
      Connected fuel s item item2 = Outcome.ok ((false, some (Error.notFound item2)), s')) ∧
    (item ∈ regKeys s → item2 ∈ regKeys s → ∃ bl s',
      Connected fuel s item item2 = Outcome.ok ((bl, none), s') ∧
      (bl = true ↔ SameRoot s item item2)) := by
  have hi := hr.inv
  have hfirst : item ∉ regKeys s → ∀ other, Connected fuel s item other =
      Outcome.ok ((false, some (Error.notFound item)), ensureInit s) := by
    intro hnot other
    have hnone := (not_mem_regKeys_iff s item).1 hnot
    obtain ⟨res, s', hop⟩ := Connected_total hi.alloc hi.forest hfuel item other
    have hres := Connected_cases hi.alloc hi.forest hop
    cases hres with
    | notFound1 _ => exact hop
    | notFound2 hp _ _ =>
      obtain ⟨w, hw⟩ := hp.isKey
      rw [hnone] at hw; cases hw
    | found hp _ _ =>
      obtain ⟨w, hw⟩ := hp.isKey
      rw [hnone] at hw; cases hw
  have hsecond : item ∈ regKeys s → item2 ∉ regKeys s → ∃ s',
      Connected fuel s item item2 = Outcome.ok ((false, some (Error.notFound item2)), s') := by
    intro hin hnot
    have hnone := (not_mem_regKeys_iff s item2).1 hnot
    obtain ⟨w1, hw1⟩ := (mem_regKeys_iff s item).1 hin
    obtain ⟨res, s', hop⟩ := Connected_total hi.alloc hi.forest hfuel item item2
    have hres := Connected_cases hi.alloc hi.forest hop
    cases hres with
    | notFound1 h1 => rw [h1] at hw1; cases hw1
    | notFound2 _ _ _ => exact ⟨s', hop⟩
    | found _ hp _ =>
      obtain ⟨w, hw⟩ := hp.isKey
      rw [hnone] at hw; cases hw
  have hthird : item ∈ regKeys s → item2 ∈ regKeys s → ∃ bl s',
      Connected fuel s item item2 = Outcome.ok ((bl, none), s') ∧
      (bl = true ↔ SameRoot s item item2) := by
    intro h1 h2
    obtain ⟨r1, hr1⟩ := hi.forest.rootOf_exists h1
    obtain ⟨r2, hr2⟩ := hi.forest.rootOf_exists h2
    obtain ⟨s', hop, _⟩ := Connected_found hi.alloc hi.forest hfuel hr1 hr2
    refine ⟨decide (r1 = r2), s', hop, ?_⟩
    rw [decide_eq_true_iff]
    constructor
    · intro e
      subst e
      exact ⟨r1, hr1, hr2⟩
    · rintro ⟨r, h1', h2'⟩
      rw [hr1.root_unique h1', hr2.root_unique h2']
  refine ⟨?_, hfirst, hsecond, hthird⟩
  by_cases h1 : item ∈ regKeys s
  · by_cases h2 : item2 ∈ regKeys s
    · obtain ⟨bl, s', hop, _⟩ := hthird h1 h2
      exact ⟨bl, none, s', hop, by simp [h1, h2], by simp⟩
    · obtain ⟨s', hop⟩ := hsecond h1 h2
      exact ⟨false, _, s', hop, by simp [h2], by simp⟩
  · exact ⟨false, _, _, hfirst h1 item2, by simp [h1], by simp⟩

/-- C11 (witness): on the state `trio12`, the call `Connected(1, 2)`; also evaluated:
`Connected(1, 2) = true`, `Connected(1, 3) = false`, `Connected(1, 9)` and
`Connected(9, 1)` fail with the not-found error for `9` and the boolean `false`. -/
theorem C11_connected_result_witness :
    Reachable trio12 ∧ card trio12 ≤ 3 ∧
    ((∃ bl e s', Connected 3 trio12 1 2 = Outcome.ok ((bl, e), s') ∧
      (e ≠ none ↔ 1 ∉ regKeys trio12 ∨ 2 ∉ regKeys trio12) ∧ (e ≠ none → bl = false)) ∧
    (1 ∉ regKeys trio12 → ∀ other, Connected 3 trio12 1 other =
      Outcome.ok ((false, some (Error.notFound 1)), ensureInit trio12)) ∧
    (1 ∈ regKeys trio12 → 2 ∉ regKeys trio12 → ∃ s',
      Connected 3 trio12 1 2 = Outcome.ok ((false, some (Error.notFound 2)), s')) ∧
    (1 ∈ regKeys trio12 → 2 ∈ regKeys trio12 → ∃ bl s',
      Connected 3 trio12 1 2 = Outcome.ok ((bl, none), s') ∧
      (bl = true ↔ SameRoot trio12 1 2))) ∧
    Connected 3 trio12 1 2 = Outcome.ok ((true, none), trio12) ∧
    Connected 3 trio12 1 3 = Outcome.ok ((false, none), trio12) ∧
    Connected 3 trio12 1 9 = Outcome.ok ((false, some (Error.notFound 9)), trio12) ∧
    Connected 3 trio12 9 1 = Outcome.ok ((false, some (Error.notFound 9)), trio12) :=
  ⟨trio12_reachable, by decide,
    C11_connected_result trio12_reachable (show card trio12 ≤ 3 by decide) 1 2,
    rfl, rfl, rfl, rfl⟩

/-- C12: `Find` fails exactly on unknown elements, and atomically.  For every state of the
structure (both maps nil, or both allocated with arbitrary contents; the forest
invariant is not assumed) and every item: if `item` is not a key of the parent map,
`Find(item)` returns the not-found error; whenever `Find(item)` returns an error, `item`
is not a key, the error is the not-found error, and every entry of the parent map and of
the size map is the same after the call as before. -/
theorem C12_find_fails_exactly_on_unknown {s : Unigo T} (ha : Allocated s) (fuel : Nat)
    (item : T) :
    (item ∉ regKeys s →
      Find fuel s item = Outcome.ok ((default, some (Error.notFound item)), ensureInit s)) ∧
    (∀ r e s', Find fuel s item = Outcome.ok ((r, some e), s') →
      item ∉ regKeys s ∧ e = Error.notFound item ∧
      (∀ y, par s' y = par s y) ∧ (∀ y, szEntry s' y = szEntry s y)) := by
  refine ⟨fun hnot => Find_notFound ha ((not_mem_regKeys_iff s item).1 hnot) fuel, ?_⟩
  intro r e s' hop
  cases hp : par s item with
  | none =>
    rw [Find_notFound ha hp fuel] at hop
    cases hop
    refine ⟨(not_mem_regKeys_iff s item).2 hp, rfl, fun y => ?_, fun y => ?_⟩
    · rw [par_ensureInit ha]
    · rw [szEntry_ensureInit ha]
  | some p0 =>
    rcases Find_key_no_error ha hp fuel with ⟨r', s'', h⟩ | h
    · rw [h] at hop; cases hop
    · rw [h] at hop; cases hop

/-- C12 (witness): `Find(99)` on the state `tree8`, and `Find(7)` on the uninitialized
structure. -/
theorem C12_find_fails_witness :
    Allocated tree8 ∧
    ((99 ∉ regKeys tree8 →
      Find 0 tree8 99 = Outcome.ok ((default, some (Error.notFound 99)), ensureInit tree8)) ∧
    (∀ r e s', Find 0 tree8 99 = Outcome.ok ((r, some e), s') →
      99 ∉ regKeys tree8 ∧ e = Error.notFound 99 ∧
      (∀ y, par s' y = par tree8 y) ∧ (∀ y, szEntry s' y = szEntry tree8 y))) ∧
    Find 0 tree8 99 = Outcome.ok ((0, some (Error.notFound 99)), tree8) ∧
    Find 0 (empty : Unigo Nat) 7 =
      Outcome.ok ((0, some (Error.notFound 7)), { id := some [], sz := some [] }) :=
  ⟨rfl, C12_find_fails_exactly_on_unknown (show Allocated tree8 from rfl) 0 99, rfl, rfl⟩

/-- C13: `Find` returns the representative.  For every state (both maps nil or both
allocated) satisfying the forest invariant and every registered item, `Find(item)`
returns with no error the element `r` at which the parent chain of `item` ends; `r` is
the only such element, and `r` is its own parent both before and after the call. -/
theorem C13_find_returns_representative {s : Unigo T} (ha : Allocated s) (hf : Forest s)
    {fuel : Nat} (hfuel : card s ≤ fuel) {item : T} (hreg : item ∈ regKeys s) :
    ∃ r s', Find fuel s item = Outcome.ok ((r, none), s') ∧ RootOf s item r ∧
      (∀ r', RootOf s item r' → r' = r) ∧ par s r = some r ∧ par s' r = some r := by
  obtain ⟨r, n, hp⟩ := hf.rootOf_exists hreg
  have hn := path_lt_card hp
  obtain ⟨s', hop, hc, _⟩ := Find_found ha hp (show n ≤ fuel + 1 by omega)
  exact ⟨r, s', hop, ⟨n, hp⟩, fun r' h' => h'.root_unique ⟨n, hp⟩, hp.isRoot,
    (hc.parents.root_iff r).2 hp.isRoot⟩

/-- C13 (witness): `Find(8)` on the state `tree8` returns the root `1`. -/
theorem C13_find_returns_representative_witness :
    Allocated tree8 ∧ Forest tree8 ∧ card tree8 ≤ 8 ∧ 8 ∈ regKeys tree8 ∧
    (∃ r s', Find 8 tree8 8 = Outcome.ok ((r, none), s') ∧ RootOf tree8 8 r ∧
      (∀ r', RootOf tree8 8 r' → r' = r) ∧ par tree8 r = some r ∧ par s' r = some r) ∧
    Find 8 tree8 8 = Outcome.ok ((1, none), tree8c) :=
  ⟨rfl, tree8_reachable.inv.forest, by decide, by decide,
    C13_find_returns_representative (show Allocated tree8 from rfl) tree8_reachable.inv.forest
      (show card tree8 ≤ 8 by decide) (show 8 ∈ regKeys tree8 by decide),
    rfl⟩

end Unigo

namespace Unigo

variable {T : Type} [DecidableEq T] [Inhabited T]

/-- C14: duplicate `MakeSet` rejected.  For every state of the structure (both maps nil or
both allocated) and every `x`: `MakeSet(x)` returns the already-exists error if `x` is a
key of the parent map, and then no entry of either map changes; it returns an error only
if `x` is a key; and if `x` is not a key, `MakeSet(x)` succeeds and a second `MakeSet(x)`
fails with the already-exists error, changes no entry, and leaves `x` its own parent with
size 1 (and, on a forest, the only element whose chain ends at `x`). -/
theorem C14_duplicate_makeSet_rejected {s : Unigo T} (ha : Allocated s) (x : T) :
    (x ∈ regKeys s →
      MakeSet s x = Outcome.ok (some (Error.alreadyExists x), ensureInit s) ∧
      (∀ y, par (ensureInit s) y = par s y) ∧ (∀ y, szEntry (ensureInit s) y = szEntry s y)) ∧
    (∀ e s', MakeSet s x = Outcome.ok (some e, s') → x ∈ regKeys s) ∧
    (x ∉ regKeys s → ∃ s1, MakeSet s x = Outcome.ok (none, s1) ∧
      ∃ s2, MakeSet s1 x = Outcome.ok (some (Error.alreadyExists x), s2) ∧
        (∀ y, par s2 y = par s1 y) ∧ (∀ y, szEntry s2 y = szEntry s1 y) ∧
        par s2 x = some x ∧ szEntry s2 x = some 1 ∧
        (Forest s → ∀ y, RootOf s2 y x ↔ y = x)) := by
  refine ⟨?_, ?_, ?_⟩
  · intro hx
    obtain ⟨w, hw⟩ := (mem_regKeys_iff s x).1 hx
    exact ⟨MakeSet_exists ha hw, fun y => by rw [par_ensureInit ha],
      fun y => by rw [szEntry_ensureInit ha]⟩
  · intro e s' hop
    by_contra hnot
    obtain ⟨s1, h1, _⟩ := MakeSet_fresh ha ((not_mem_regKeys_iff s x).1 hnot)
    rw [h1] at hop
    cases hop
  · intro hnot
    have hnone := (not_mem_regKeys_iff s x).1 hnot
    obtain ⟨s1, h1, he⟩ := MakeSet_fresh ha hnone
    obtain ⟨es, zs, hid, hsz⟩ := he.alloc
    have hx1 : par s1 x = some x := by rw [he.parents, if_pos rfl]
    have h2 := MakeSet_exists he.ext_allocated hx1
    rw [ensureInit_of_alloc hid hsz] at h2
    refine ⟨s1, h1, s1, h2, fun _ => rfl, fun _ => rfl, hx1, ?_, ?_⟩
    · rw [he.sizes, if_pos rfl]
    · intro hf y
      constructor
      · rintro ⟨n, hp⟩
        rcases ParentPath.extend_inv hnone hf.closed he.parents hp with ⟨e, _, _⟩ | hp'
        · exact e
        · have := hp'.isRoot
          rw [hnone] at this
          cases this
      · intro e
        subst e
        exact ⟨0, ParentPath.root hx1⟩

/-- C14 (witness): `MakeSet(3)` on the state `pair12` and again on the result `trio`, and
`MakeSet(2)` on `pair12`. -/
theorem C14_duplicate_makeSet_witness :
    Allocated pair12 ∧
    ((3 ∈ regKeys pair12 →
      MakeSet pair12 3 = Outcome.ok (some (Error.alreadyExists 3), ensureInit pair12) ∧
      (∀ y, par (ensureInit pair12) y = par pair12 y) ∧
      (∀ y, szEntry (ensureInit pair12) y = szEntry pair12 y)) ∧
    (∀ e s', MakeSet pair12 3 = Outcome.ok (some e, s') → 3 ∈ regKeys pair12) ∧
    (3 ∉ regKeys pair12 → ∃ s1, MakeSet pair12 3 = Outcome.ok (none, s1) ∧
      ∃ s2, MakeSet s1 3 = Outcome.ok (some (Error.alreadyExists 3), s2) ∧
        (∀ y, par s2 y = par s1 y) ∧ (∀ y, szEntry s2 y = szEntry s1 y) ∧
        par s2 3 = some 3 ∧ szEntry s2 3 = some 1 ∧
        (Forest pair12 → ∀ y, RootOf s2 y 3 ↔ y = 3))) ∧
    MakeSet pair12 3 = Outcome.ok (none, trio) ∧
    MakeSet trio 3 = Outcome.ok (some (Error.alreadyExists 3), trio) ∧
    MakeSet pair12 2 = Outcome.ok (some (Error.alreadyExists 2), pair12) :=
  ⟨rfl, C14_duplicate_makeSet_rejected (show Allocated pair12 from rfl) 3, rfl, rfl, rfl⟩

/-- C15: `MakeSet` success.  For every state of the structure (both maps nil or both
allocated) and every item that is not yet a key, `MakeSet(item)` returns no error and
afterwards `parent[item] = item` and `sz[item] = 1`, while the parent and size entries of
every other element are unchanged; on a forest, `item` is then the only element whose
chain ends at `item`, and `Connected(item, y)` returns `false` with no error for every
previously registered `y`. -/
theorem C15_makeSet_success {s : Unigo T} (ha : Allocated s) {item : T}
    (hnew : item ∉ regKeys s) :
    ∃ s', MakeSet s item = Outcome.ok (none, s') ∧
      par s' item = some item ∧ szEntry s' item = some 1 ∧ size s' item = 1 ∧
      (∀ y, y ≠ item → par s' y = par s y ∧ szEntry s' y = szEntry s y) ∧
      (Forest s →
        (∀ y, RootOf s' y item ↔ y = item) ∧
        ∀ (y : T) (fuel : Nat), y ∈ regKeys s → card s' ≤ fuel →
          ∃ s'', Connected fuel s' item y = Outcome.ok ((false, none), s'')) := by
  have hnone := (not_mem_regKeys_iff s item).1 hnew
  obtain ⟨s', hop, he⟩ := MakeSet_fresh ha hnone
  have hx : par s' item = some item := by rw [he.parents, if_pos rfl]
  have hsz : szEntry s' item = some 1 := by rw [he.sizes, if_pos rfl]
  refine ⟨s', hop, hx, hsz, by rw [size_eq_szEntry, hsz]; rfl, ?_, ?_⟩
  · intro y hy
    exact ⟨by rw [he.parents, if_neg hy], by rw [he.sizes, if_neg hy]⟩
  · intro hf
    have hroot : ∀ y, RootOf s' y item ↔ y = item := by
      intro y
      constructor
      · rintro ⟨n, hp⟩
        rcases ParentPath.extend_inv hnone hf.closed he.parents hp with ⟨e, _, _⟩ | hp'
        · exact e
        · have := hp'.isRoot
          rw [hnone] at this
          cases this
      · intro e
        subst e
        exact ⟨0, ParentPath.root hx⟩
    refine ⟨hroot, ?_⟩
    intro y fuel hy hfuel
    obtain ⟨ry, n, hp⟩ := hf.rootOf_exists hy
    have hry : RootOf s' y ry := ⟨n, ParentPath.extend_keep hnone he.parents hp⟩
    have hne : item ≠ ry := by
      intro e
      subst e
      have := hp.isRoot
      rw [hnone] at this
      cases this
    obtain ⟨s'', hc, _⟩ := Connected_found he.ext_allocated (hf.forest_of_extended hnone he)
      hfuel (show RootOf s' item item from ⟨0, ParentPath.root hx⟩) hry
    rw [decide_eq_false hne] at hc
    exact ⟨s'', hc⟩

/-- C15 (witness): `MakeSet(3)` on the state `pair12`, and `MakeSet(1)` on the
uninitialized structure. -/
theorem C15_makeSet_success_witness :
    Allocated pair12 ∧ 3 ∉ regKeys pair12 ∧
    (∃ s', MakeSet pair12 3 = Outcome.ok (none, s') ∧
      par s' 3 = some 3 ∧ szEntry s' 3 = some 1 ∧ size s' 3 = 1 ∧
      (∀ y, y ≠ 3 → par s' y = par pair12 y ∧ szEntry s' y = szEntry pair12 y) ∧
      (Forest pair12 →
        (∀ y, RootOf s' y 3 ↔ y = 3) ∧
        ∀ (y : Nat) (fuel : Nat), y ∈ regKeys pair12 → card s' ≤ fuel →
          ∃ s'', Connected fuel s' 3 y = Outcome.ok ((false, none), s''))) ∧
    MakeSet pair12 3 = Outcome.ok (none, trio) ∧
    MakeSet (empty : Unigo Nat) 1 =
      Outcome.ok (none, { id := some [(1, 1)], sz := some [(1, 1)] }) :=
  ⟨rfl, by decide,
    C15_makeSet_success (show Allocated pair12 from rfl) (show 3 ∉ regKeys pair12 by decide),
    rfl, rfl⟩

/-- C16: lazy initialisation is safe.  In every state reachable from the uninitialized
structure: the structure is the uninitialized one or both maps are allocated; the guard
leaves an initialized structure as it is and the error value it drops is always `nil`, so
`initializeMap` is never run on an initialized structure; no method panics; and after any
call of `MakeSet`, `Find`, `Union` or `Connected` that returns, both maps are allocated
(so they stay allocated in all later states). -/
theorem C16_lazy_init_safe {s : Unigo T} (hr : Reachable s) (fuel : Nat) (item item2 : T) :
    (s = empty ∨ mapIntialized s = true) ∧
    guardError s = none ∧
    ((initializeMap s).1 = some Error.alreadyInitialized ↔ mapIntialized s = true) ∧
    (mapIntialized s = true → ensureInit s = s) ∧
    mapIntialized (ensureInit s) = true ∧
    (∀ y, par (ensureInit s) y = par s y) ∧ (∀ y, szEntry (ensureInit s) y = szEntry s y) ∧
    (∃ e s', MakeSet s item = Outcome.ok (e, s') ∧ mapIntialized s' = true ∧
      guardError s' = none) ∧
    (Find fuel s item ≠ Outcome.panic ∧
      ∀ res s', Find fuel s item = Outcome.ok (res, s') →
        mapIntialized s' = true ∧ guardError s' = none) ∧
    (Union fuel s item item2 ≠ Outcome.panic ∧
      ∀ res s', Union fuel s item item2 = Outcome.ok (res, s') →
        mapIntialized s' = true ∧ guardError s' = none) ∧
    (Connected fuel s item item2 ≠ Outcome.panic ∧
      ∀ res s', Connected fuel s item item2 = Outcome.ok (res, s') →
        mapIntialized s' = true ∧ guardError s' = none) := by
  have hi := hr.inv
  refine ⟨hr.empty_or_init, guardError_none s, ?_, ?_,
    mapIntialized_of_alloc (ensureInit_alloc s),
    fun y => by rw [par_ensureInit hi.alloc], fun y => by rw [szEntry_ensureInit hi.alloc],
    ?_, ?_, ?_, ?_⟩
  · rcases s with ⟨_ | es, _ | zs⟩ <;> simp [initializeMap, mapIntialized]
  · intro h
    rcases s with ⟨_ | es, _ | zs⟩ <;> first | rfl | (simp [mapIntialized] at h)
  · obtain ⟨e, s', hop⟩ := MakeSet_total s item
    exact ⟨e, s', hop, mapIntialized_of_alloc (MakeSet_result_alloc hi.alloc hop),
      guardError_none s'⟩
  · refine ⟨Find_no_panic hi.alloc fuel item, fun res s' hop => ?_⟩
    exact ⟨mapIntialized_of_alloc (Find_cases hi.alloc hi.forest hop).1.alloc,
      guardError_none s'⟩
  · refine ⟨Union_no_panic hi.alloc hi.forest fuel item item2, fun res s' hop => ?_⟩
    exact ⟨mapIntialized_of_alloc (Union_cases hi.alloc hi.forest hop).result_alloc,
      guardError_none s'⟩
  · refine ⟨Connected_no_panic hi.alloc hi.forest fuel item item2, fun res s' hop => ?_⟩
    exact ⟨mapIntialized_of_alloc
      ((Connected_cases hi.alloc hi.forest hop).compresses hi.alloc).alloc, guardError_none s'⟩

/-- C16 (witness): the uninitialized structure and the calls `MakeSet(1)`, `Find(1)`,
`Union(1, 2)`, `Connected(1, 2)` on it. -/
theorem C16_lazy_init_safe_witness :
    Reachable (empty : Unigo Nat) ∧
    ((empty = (empty : Unigo Nat) ∨ mapIntialized (empty : Unigo Nat) = true) ∧
    guardError (empty : Unigo Nat) = none ∧
    ((initializeMap (empty : Unigo Nat)).1 = some Error.alreadyInitialized ↔
      mapIntialized (empty : Unigo Nat) = true) ∧
    (mapIntialized (empty : Unigo Nat) = true → ensureInit (empty : Unigo Nat) = empty) ∧
    mapIntialized (ensureInit (empty : Unigo Nat)) = true ∧
    (∀ y, par (ensureInit (empty : Unigo Nat)) y = par empty y) ∧
    (∀ y, szEntry (ensureInit (empty : Unigo Nat)) y = szEntry empty y) ∧
    (∃ e s', MakeSet (empty : Unigo Nat) 1 = Outcome.ok (e, s') ∧ mapIntialized s' = true ∧
      guardError s' = none) ∧
    (Find 0 (empty : Unigo Nat) 1 ≠ Outcome.panic ∧
      ∀ res s', Find 0 (empty : Unigo Nat) 1 = Outcome.ok (res, s') →
        mapIntialized s' = true ∧ guardError s' = none) ∧
    (Union 0 (empty : Unigo Nat) 1 2 ≠ Outcome.panic ∧
      ∀ res s', Union 0 (empty : Unigo Nat) 1 2 = Outcome.ok (res, s') →
        mapIntialized s' = true ∧ guardError s' = none) ∧
    (Connected 0 (empty : Unigo Nat) 1 2 ≠ Outcome.panic ∧
      ∀ res s', Connected 0 (empty : Unigo Nat) 1 2 = Outcome.ok (res, s') →
        mapIntialized s' = true ∧ guardError s' = none)) ∧
    Union 0 (empty : Unigo Nat) 1 2 =
      Outcome.ok ((0, some (Error.notFound 1)), { id := some [], sz := some [] }) :=
  ⟨Reachable.empty, C16_lazy_init_safe Reachable.empty 0 1 2, rfl⟩

end Unigo

namespace Unigo

variable {T : Type} [DecidableEq T] [Inhabited T]

/-- C17: `Find` does not change the partition.  For every state (both maps nil or both
allocated) satisfying the forest invariant and every registered item, `Find(item)`
returns the root `r` of `item`, leaves the key set and every size entry unchanged, and
changes the parent entry only of keys `y` that lie on the trail from `item` to its root,
are not roots (and are not `item` itself), setting it to `r`; every element keeps its
root; a later `Find` on any registered `y` (in particular on a node visited) returns the
root `y` had before; and when `item` is its own root no entry changes. -/
theorem C17_find_keeps_partition {s : Unigo T} (ha : Allocated s) (hf : Forest s)
    {fuel : Nat} (hfuel : card s ≤ fuel) {item : T} (hreg : item ∈ regKeys s) :
    ∃ r s' l, Find fuel s item = Outcome.ok ((r, none), s') ∧ Trail (par s) item l r ∧
      regKeys s' = regKeys s ∧
      (∀ y, szEntry s' y = szEntry s y) ∧
      (∀ y, par s' y = par s y ∨
        (y ∈ l ∧ y ≠ item ∧ par s y ≠ some y ∧ par s' y = some r)) ∧
      (∀ y ry, RootOf s' y ry ↔ RootOf s y ry) ∧
      (∀ y, y ∈ regKeys s →
        ∃ ry s'', RootOf s y ry ∧ Find fuel s' y = Outcome.ok ((ry, none), s'')) ∧
      (par s item = some item → ∀ y, par s' y = par s y) := by
  obtain ⟨r, n, hp⟩ := hf.rootOf_exists hreg
  have hn := path_lt_card hp
  obtain ⟨s', hop, hc, p0, l0, hp0, ht0, _, hpar⟩ :=
    Find_found ha hp (show n ≤ fuel + 1 by omega)
  obtain ⟨l, hl, hsub, hnil⟩ := trail_from_item hp0 ht0
  refine ⟨r, s', l, hop, hl, hc.keys, hc.sizes, ?_, hc.rootOf_iff, ?_, ?_⟩
  · intro y
    by_cases hy : y ∈ l0
    · right
      obtain ⟨h1, h2⟩ := hsub y hy
      exact ⟨h1, h2, trail_mem_not_root ht0 hy, by rw [hpar, if_pos hy]⟩
    · left
      rw [hpar, if_neg hy]
  · intro y hy
    obtain ⟨ry, m, hpy⟩ := hf.rootOf_exists hy
    have hf' := hf.forest_of_compresses hc
    obtain ⟨m', hm', hpy'⟩ := hc.parents.of_old hpy
    have hm := path_lt_card hpy
    obtain ⟨s'', hop', _⟩ := Find_found hc.allocated hpy' (show m' ≤ fuel + 1 by omega)
    exact ⟨ry, s'', ⟨m, hpy⟩, hop'⟩
  · intro hroot y
    rw [hpar, hnil hroot]
    simp

/-- C17 (witness): `Find(8)` on the state `tree8` changes only the parent entry of `7`. -/
theorem C17_find_keeps_partition_witness :
    Allocated tree8 ∧ Forest tree8 ∧ card tree8 ≤ 8 ∧ 8 ∈ regKeys tree8 ∧
    (∃ r s' l, Find 8 tree8 8 = Outcome.ok ((r, none), s') ∧ Trail (par tree8) 8 l r ∧
      regKeys s' = regKeys tree8 ∧
      (∀ y, szEntry s' y = szEntry tree8 y) ∧
      (∀ y, par s' y = par tree8 y ∨
        (y ∈ l ∧ y ≠ 8 ∧ par tree8 y ≠ some y ∧ par s' y = some r)) ∧
      (∀ y ry, RootOf s' y ry ↔ RootOf tree8 y ry) ∧
      (∀ y, y ∈ regKeys tree8 →
        ∃ ry s'', RootOf tree8 y ry ∧ Find 8 s' y = Outcome.ok ((ry, none), s'')) ∧
      (par tree8 8 = some 8 → ∀ y, par s' y = par tree8 y)) ∧
    Find 8 tree8 8 = Outcome.ok ((1, none), tree8c) ∧
    Find 8 tree8c 7 = Outcome.ok ((1, none), tree8c) ∧
    Find 8 tree8 1 = Outcome.ok ((1, none), tree8) :=
  ⟨rfl, tree8_reachable.inv.forest, by decide, by decide,
    C17_find_keeps_partition (show Allocated tree8 from rfl) tree8_reachable.inv.forest
      (show card tree8 ≤ 8 by decide) (show 8 ∈ regKeys tree8 by decide),
    rfl, rfl, rfl⟩

/-- C18: `Find` terminates.  For every state satisfying the forest invariant and every
item: the read loop of `Find` (started, as in the code, at the parent `p0` of a registered
item) executes its body a fixed number of times that is smaller than the number of
registered elements: with that much fuel or more it returns, with less it does not; and
with fuel for as many iterations as there are registered elements `Find`, `Union` and
`Connected` return. -/
theorem C18_find_terminates {s : Unigo T} (hf : Forest s) (item item2 : T) :
    (∀ p0, par (ensureInit s) item = some p0 →
      ∃ r buf, buf.length < card s ∧
        (∀ fuel, buf.length ≤ fuel → findWalk (ensureInit s).id fuel p0 [] = some (r, buf)) ∧
        (∀ fuel, fuel < buf.length → findWalk (ensureInit s).id fuel p0 [] = none)) ∧
    (∀ fuel, card s ≤ fuel →
      (∃ res s', Find fuel s item = Outcome.ok (res, s')) ∧
      (∃ res s', Union fuel s item item2 = Outcome.ok (res, s')) ∧
      (∃ res s', Connected fuel s item item2 = Outcome.ok (res, s'))) := by
  have ha0 := allocated_ensureInit s
  have hf0 := hf.forest_ensure
  have hcard := card_ensureInit_le s
  refine ⟨?_, ?_⟩
  · intro p0 hp0
    obtain ⟨_, n, r, hp⟩ := hf0 item p0 hp0
    have hn := path_lt_card hp
    have key : ∃ l, Trail (par (ensureInit s)) p0 l r ∧ l.length = n - 1 := by
      cases hp with
      | root hr =>
        rw [hr] at hp0
        cases Option.some.inj hp0
        exact ⟨[], Trail.root hr, rfl⟩
      | step hxy hne hp' =>
        rw [hxy] at hp0
        cases Option.some.inj hp0
        obtain ⟨l, hl, hlen⟩ := Trail.ofPath hp'
        exact ⟨l, hl, by simp [hlen]⟩
    obtain ⟨l, hl, hlen⟩ := key
    refine ⟨r, l, by omega, fun fuel hfuel => ?_, fun fuel hfuel => ?_⟩
    · have := @findWalk_trail T _ _ (ensureInit s).id _ _ _ hl fuel [] hfuel
      simpa using this
    · exact @findWalk_short T _ _ (ensureInit s).id _ _ _ hl fuel [] hfuel
  · intro fuel hfuel
    have hfuel0 : card (ensureInit s) ≤ fuel := le_trans hcard hfuel
    refine ⟨?_, ?_, ?_⟩
    · rw [← Find_ensureInit]
      exact Find_total ha0 hf0 hfuel0 item
    · rw [← Union_ensureInit]
      exact Union_total ha0 hf0 hfuel0 item item2
    · rw [← Connected_ensureInit]
      exact Connected_total ha0 hf0 hfuel0 item item2

/-- C18 (witness): on the state `tree8` (8 registered elements) the walk of `Find(8)`
starts at `7` and executes the loop body twice. -/
theorem C18_find_terminates_witness :
    Forest tree8 ∧
    ((∀ p0, par (ensureInit tree8) 8 = some p0 →
      ∃ r buf, buf.length < card tree8 ∧
        (∀ fuel, buf.length ≤ fuel →
          findWalk (ensureInit tree8).id fuel p0 [] = some (r, buf)) ∧
        (∀ fuel, fuel < buf.length → findWalk (ensureInit tree8).id fuel p0 [] = none)) ∧
    (∀ fuel, card tree8 ≤ fuel →
      (∃ res s', Find fuel tree8 8 = Outcome.ok (res, s')) ∧
      (∃ res s', Union fuel tree8 8 4 = Outcome.ok (res, s')) ∧
      (∃ res s', Connected fuel tree8 8 4 = Outcome.ok (res, s')))) ∧
    card tree8 = 8 ∧
    findWalk tree8.id 2 7 [] = some (1, [7, 5]) ∧
    findWalk tree8.id 1 7 [] = none :=
  ⟨tree8_reachable.inv.forest, C18_find_terminates tree8_reachable.inv.forest 8 4,
    by decide, rfl, rfl⟩

/-- C19: union by size bounds the tree depth.  In every reachable state, if the parent
chain of `x` ends at the root `r` after `d` parent steps, then `2 ^ d ≤ sz[r]`. -/
theorem C19_depth_bound {s : Unigo T} (hr : Reachable s) {x r : T} {d : Nat}
    (hp : ParentPath (par s) d x r) : (2 : Int) ^ d ≤ size s r := by
  obtain ⟨h, hlt, hsz⟩ := hr.ranked
  have h1 := rank_path_le hlt hp
  have h2 := hsz r hp.isRoot
  have h3 : (2 : Int) ^ d ≤ 2 ^ h r := pow_le_pow_right₀ (by norm_num) (by omega)
  exact le_trans h3 h2

/-- C19 (witness): in the state `tree8` the element `8` is 3 steps below the root `1`,
whose size entry is `8 = 2 ^ 3`. -/
theorem C19_depth_bound_witness :
    Reachable tree8 ∧ ParentPath (par tree8) 3 8 1 ∧ (2 : Int) ^ 3 ≤ size tree8 1 ∧
    size tree8 1 = 8 :=
  ⟨tree8_reachable,
    ParentPath.step rfl (by decide)
      (ParentPath.step rfl (by decide) (ParentPath.step rfl (by decide) (ParentPath.root rfl))),
    C19_depth_bound tree8_reachable
      (show ParentPath (par tree8) 3 8 1 from
        ParentPath.step rfl (by decide)
          (ParentPath.step rfl (by decide)
            (ParentPath.step rfl (by decide) (ParentPath.root rfl)))),
    rfl⟩

/-- C20 (counterexample): in the reachable state `quad` with the trees `2 → 1` and
`4 → 3`, `Union(2, 4)` succeeds and attaches the root `3` under the root `1`; the parent
entry of `item2 = 4` is not touched and afterwards differs from the parent entry of
`item = 2`. -/
theorem C20_counterexample :
    Reachable quad ∧ 2 ∈ regKeys quad ∧ 4 ∈ regKeys quad ∧
    Union 4 quad 2 4 = Outcome.ok ((1, none), tree4) ∧
    par quad 4 = some 3 ∧ par tree4 4 = some 3 ∧ par tree4 2 = some 1 ∧
    par tree4 4 ≠ par tree4 2 :=
  ⟨quad_reachable, by decide, by decide, rfl, rfl, rfl, rfl, by decide⟩

/-- C20 (amended): in every reachable state and for registered `item`, `item2`,
`Union(item, item2)` succeeds and afterwards the parent chains of `item` and `item2` end
at the same root; when `item` and `item2` are both roots before the call, the parent
entry of `item2` equals the parent entry of `item` after the call. -/
theorem C20_union_joins_roots {s : Unigo T} (hr : Reachable s) {fuel : Nat}
    (hfuel : card s ≤ fuel) {item item2 : T}
    (h1 : item ∈ regKeys s) (h2 : item2 ∈ regKeys s) :
    ∃ r s', Union fuel s item item2 = Outcome.ok ((r, none), s') ∧
      (∃ r', RootOf s' item r' ∧ RootOf s' item2 r') ∧
      (par s item = some item → par s item2 = some item2 → par s' item2 = par s' item) := by
  have hi := hr.inv
  obtain ⟨r1, hr1⟩ := hi.forest.rootOf_exists h1
  obtain ⟨r2, hr2⟩ := hi.forest.rootOf_exists h2
  by_cases hne : r1 = r2
  · subst hne
    obtain ⟨res, s', hop⟩ := Union_total hi.alloc hi.forest hfuel item item2
    have hres := Union_cases hi.alloc hi.forest hop
    cases hres with
    | notFound1 hnone =>
      obtain ⟨w, hw⟩ := (mem_regKeys_iff s item).1 h1
      rw [hnone] at hw; cases hw
    | notFound2 _ hnone _ =>
      obtain ⟨w, hw⟩ := (mem_regKeys_iff s item2).1 h2
      rw [hnone] at hw; cases hw
    | @same n1 n2 r s2 hp1 hp2 hc =>
      refine ⟨r, s', hop, ⟨r, (hc.rootOf_iff _ _).2 ⟨n1, hp1⟩, (hc.rootOf_iff _ _).2 ⟨n2, hp2⟩⟩,
        ?_⟩
      intro ha hb
      have e1 := (ParentPath.of_root ha hp1).2
      have e2 := (ParentPath.of_root hb hp2).2
      rw [← e1, ← e2]
    | mergedLt hp1 hp2 hne' _ _ _ =>
      exact absurd ((RootOf.root_unique ⟨_, hp1⟩ hr1).trans
        (RootOf.root_unique ⟨_, hp2⟩ hr2).symm) hne'
    | mergedGe hp1 hp2 hne' _ _ _ =>
      exact absurd ((RootOf.root_unique ⟨_, hp1⟩ hr1).trans
        (RootOf.root_unique ⟨_, hp2⟩ hr2).symm) hne'
  · obtain ⟨s2, s', hop, hc, hcase⟩ := Union_merge hi.alloc hi.forest hfuel hr1 hr2 hne
    have hres := Union_cases hi.alloc hi.forest hop
    have hsame : SameRoot s' item item2 :=
      (hres.sameRoot_after item item2).2
        (Or.inr (Or.inl ⟨⟨r1, hr1, hr1⟩, ⟨r2, hr2, hr2⟩⟩))
    refine ⟨r1, s', hop, hsame, ?_⟩
    intro ha hb
    obtain ⟨n1, hp1⟩ := hr1
    obtain ⟨n2, hp2⟩ := hr2
    have e1 := (ParentPath.of_root ha hp1).2
    have e2 := (ParentPath.of_root hb hp2).2
    subst e1 e2
    have ha2 : par s2 r1 = some r1 := (hc.parents.root_iff _).2 ha
    have hb2 : par s2 r2 = some r2 := (hc.parents.root_iff _).2 hb
    rcases hcase with ⟨_, hl⟩ | ⟨_, hl⟩
    · rw [hl.parents r2, if_neg (Ne.symm hne), hl.parents r1, if_pos rfl, hb2]
    · rw [hl.parents r2, if_pos rfl, hl.parents r1, if_neg hne, ha2]

/-- C20 (witness): `Union(2, 4)` on the state `quad`; afterwards `Find(2)` and `Find(4)`
both report `1`.  Also evaluated: uniting the two roots `1` and `2` of `pair12` leaves
both with the parent entry `1`. -/
theorem C20_union_joins_roots_witness :
    Reachable quad ∧ card quad ≤ 4 ∧ 2 ∈ regKeys quad ∧ 4 ∈ regKeys quad ∧
    (∃ r s', Union 4 quad 2 4 = Outcome.ok ((r, none), s') ∧
      (∃ r', RootOf s' 2 r' ∧ RootOf s' 4 r') ∧
      (par quad 2 = some 2 → par quad 4 = some 4 → par s' 4 = par s' 2)) ∧
    Find 4 tree4 2 = Outcome.ok ((1, none), tree4) ∧
    Find 4 tree4 4 = Outcome.ok ((1, none), tree4) ∧
    Union 2 pair12 1 2 = Outcome.ok ((1, none), pair12m) ∧
    par pair12m 2 = some 1 ∧ par pair12m 1 = some 1 :=
  ⟨quad_reachable, by decide, by decide, by decide,
    C20_union_joins_roots quad_reachable (show card quad ≤ 4 by decide)
      (show 2 ∈ regKeys quad by decide) (show 4 ∈ regKeys quad by decide),
    rfl, rfl, rfl, rfl, rfl⟩

end Unigo
